import Mathlib

/-
Verification of the twif frame-aligned streaming buffer (src/stream.rs) and
its orchestration / rendition-selection logic (src/main.rs).

The Structural Event Source (the gif crate's StreamingDecoder) is external
to the repository; it is modelled abstractly as a stateful step function
returning (bytesConsumed, event, newState), following the interface stated
in the specification: it consumes at most the bytes it is given, and it may
consume zero bytes only when it has nothing to report (it needs more input).

Bytes are modelled as natural numbers (they are only moved around, never
computed with).  Machine-integer offsets are modelled as Nat; the only
subtraction sites are proved non-underflowing for reachable states.
-/

namespace Twif

/-- Structural events reported by the decoder, mirroring gif::Decoded as
matched in Stream::consume: Nothing, the five frame-interior constructors
(BlockStart, SubBlockFinished, BlockFinished, Frame, Data), DataEnd, and
a single constructor standing for every event hit by the catch-all arm. -/
inductive Decoded where
  | nothing
  | blockStart
  | subBlockFinished
  | blockFinished
  | frame
  | data
  | dataEnd
  | other
deriving DecidableEq, Repr

/-- A completed frame: absolute offset of its first byte plus its bytes. -/
structure Blob where
  offset : Nat
  data : List Nat
deriving DecidableEq, Repr

/-- The Frame Buffer state (struct Stream in stream.rs).  The field
history is a specification ghost: it records every finalized frame in
order and is never read by any operation; all other fields are exactly
the source's fields (partial_frame is called pendingFrame because the
word partial is reserved in Lean). -/
structure StreamState (σ : Type) where
  preamble : List Nat
  frames : List Blob
  offset : Nat
  pendingFrame : List Nat
  decoder : σ
  undecoded : List Nat
  decoded : List Nat
  history : List Blob
deriving DecidableEq, Repr

/-- A decoder step function: state, input bytes to (consumed, event, state). -/
def DecoderFn (σ : Type) : Type := σ → List Nat → Nat × Decoded × σ

/-- Decoder contract, part 1: it never consumes more bytes than offered
(the Rust code slices data with ..n and would panic otherwise). -/
def DecLe {σ : Type} (D : DecoderFn σ) : Prop :=
  ∀ d l, (D d l).1 ≤ l.length

/-- Decoder contract, part 2 (from the spec: the source may consume zero
bytes only if more input is needed): a real event consumes at least one byte. -/
def DecPos {σ : Type} (D : DecoderFn σ) : Prop :=
  ∀ d l, (D d l).2.1 ≠ Decoded.nothing → 0 < (D d l).1

/-- Stream::new. -/
def init {σ : Type} (d : σ) : StreamState σ :=
  ⟨[], [], 0, [], d, [], [], []⟩

/-- The newest-to-oldest frame scan inside Stream::read_after.  The
argument list is the frames in newest-first order; none means the loop
fell through (every frame was skipped by the continue branch). -/
def findFrameRev (off : Nat) : List Blob → Option (Nat × List Nat)
  | [] => none
  | f :: rest =>
    if off < f.offset then findFrameRev off rest
    else if f.offset + f.data.length ≤ off then some (off, [])
    else some (f.offset + f.data.length, f.data.drop (off - f.offset))

/-- Stream::read_after. -/
def read_after {σ : Type} (s : StreamState σ) (off : Nat) : Nat × List Nat :=
  if s.offset ≤ off then (off, [])
  else if off < s.preamble.length then (s.preamble.length, s.preamble.drop off)
  else
    match findFrameRev off s.frames.reverse with
    | some r => r
    | none =>
      match s.frames with
      | [] => (off, [])
      | f :: _ => (f.offset + f.data.length, f.data)

/-- Stream::add_to_preamble.  Note what the source actually does in the
accepting branch: the already-consumed-but-unclassified bytes (decoded)
are moved into partial_frame, only the event's bytes go to the preamble,
and offset advances by the event's bytes only. -/
def add_to_preamble {σ : Type} (s : StreamState σ) (d : List Nat) : StreamState σ :=
  if 0 < s.frames.length ∨ 0 < s.pendingFrame.length then s
  else
    { s with
      pendingFrame := s.pendingFrame ++ s.decoded
      decoded := []
      preamble := s.preamble ++ d
      offset := s.offset + d.length }

/-- Stream::add_to_frame. -/
def add_to_frame {σ : Type} (s : StreamState σ) (d : List Nat) : StreamState σ :=
  { s with
    pendingFrame := s.pendingFrame ++ s.decoded ++ d
    decoded := [] }

/-- The eviction loop at the end of Stream::finish_frame, oldest frame at
the head.  The source unwraps front and back and subtracts their offsets;
the subtraction here is Nat subtraction, with non-underflow proved
separately for reachable states. -/
def evictLoop : List Blob → List Blob
  | [] => []
  | f :: rest =>
    if ((f :: rest).getLast (List.cons_ne_nil f rest)).offset - f.offset < 1048576 then
      f :: rest
    else evictLoop rest

/-- Stream::finish_frame: move pendingFrame into a new Blob at the current
offset, push it, advance offset, then run the eviction loop.  The ghost
history also records the new Blob (and is never evicted). -/
def finish_frame {σ : Type} (s : StreamState σ) : StreamState σ :=
  let b : Blob := ⟨s.offset, s.pendingFrame⟩
  { s with
    pendingFrame := []
    offset := s.offset + s.pendingFrame.length
    frames := evictLoop (s.frames ++ [b])
    history := s.history ++ [b] }

/-- Stream::consume, with explicit fuel for its internal loop (the loop
runs until the decoder reports nothing).  Returns the new state and the
total number of bytes consumed; none means the fuel ran out. -/
def consume {σ : Type} (D : DecoderFn σ) : Nat → StreamState σ → List Nat → Option (StreamState σ × Nat)
  | 0, _, _ => none
  | fuel + 1, s, d =>
    match D s.decoder d with
    | (n, Decoded.nothing, dec) =>
      some ({ s with decoder := dec, decoded := s.decoded ++ d.take n }, n)
    | (n, Decoded.dataEnd, dec) =>
      (consume D fuel (finish_frame (add_to_frame { s with decoder := dec } (d.take n))) (d.drop n)).map
        (fun r => (r.1, n + r.2))
    | (n, Decoded.other, dec) =>
      (consume D fuel (add_to_preamble { s with decoder := dec } (d.take n)) (d.drop n)).map
        (fun r => (r.1, n + r.2))
    | (n, _, dec) =>
      (consume D fuel (add_to_frame { s with decoder := dec } (d.take n)) (d.drop n)).map
        (fun r => (r.1, n + r.2))

/-- The loop in the first branch of Stream::write (empty carry): call
consume, stop when it consumes zero, otherwise advance past the consumed
bytes and repeat.  Returns the final state and the remaining bytes. -/
def writeLoopA {σ : Type} (D : DecoderFn σ) : Nat → StreamState σ → List Nat → Option (StreamState σ × List Nat)
  | 0, _, _ => none
  | fuel + 1, s, d =>
    match consume D (fuel + 1) s d with
    | none => none
    | some (s1, n) =>
      if n = 0 then some (s1, d)
      else writeLoopA D fuel s1 (d.drop n)

/-- The loop in the second branch of Stream::write (nonempty carry): as in
the source, the data is NOT advanced between iterations. -/
def writeLoopB {σ : Type} (D : DecoderFn σ) : Nat → StreamState σ → List Nat → Option (StreamState σ)
  | 0, _, _ => none
  | fuel + 1, s, d =>
    match consume D (fuel + 1) s d with
    | none => none
    | some (s1, n) =>
      if n = 0 then some s1
      else writeLoopB D fuel s1 d

/-- Stream::write.  In the first branch (carry empty) the remaining bytes
become the carry; in the second branch (carry nonempty) the carry is
emptied, the whole carry-plus-input batch is processed by the
non-advancing loop, and then the whole batch is appended to the carry,
exactly as the source does. -/
def write {σ : Type} (D : DecoderFn σ) (fuel : Nat) (s : StreamState σ) (d : List Nat) : Option (StreamState σ) :=
  if s.undecoded.length = 0 then
    match writeLoopA D fuel s d with
    | none => none
    | some (s1, rest) => some { s1 with undecoded := s1.undecoded ++ rest }
  else
    let full := s.undecoded ++ d
    match writeLoopB D fuel { s with undecoded := [] } full with
    | none => none
    | some s1 => some { s1 with undecoded := s1.undecoded ++ full }

/-- A sequence of write calls. -/
def writeSeq {σ : Type} (D : DecoderFn σ) (fuel : Nat) : StreamState σ → List (List Nat) → Option (StreamState σ)
  | s, [] => some s
  | s, c :: cs =>
    match write D fuel s c with
    | none => none
    | some s1 => writeSeq D fuel s1 cs

/-- Script decoder: a concrete Structural Event Source used for witnesses
and counterexamples.  Its state is a list of (byteCount, event) commands;
a command fires when its byte count is positive and available, otherwise
the decoder reports nothing and waits for more input. -/
abbrev Script : Type := List (Nat × Decoded)

/-- One step of the script decoder. -/
def scriptStep : DecoderFn Script :=
  fun sc l =>
    match sc with
    | [] => (0, Decoded.nothing, [])
    | (n, ev) :: rest =>
      if 0 < n ∧ n ≤ l.length then (n, ev, rest)
      else (0, Decoded.nothing, (n, ev) :: rest)

/-- The inner drain loop of copy_from_ffmpeg_to_client in main.rs: repeatedly
read_after the current offset; if the offset did not advance, stop and
return the offset and the chunks sent so far; otherwise send the returned
slice and continue from the new offset.  Fuel-indexed; none = fuel ran out. -/
def drainLoop {σ : Type} (s : StreamState σ) : Nat → Nat → List (List Nat) → Option (Nat × List (List Nat))
  | 0, _, _ => none
  | fuel + 1, off, sent =>
    let r := read_after s off
    if r.1 ≤ off then some (off, sent)
    else drainLoop s fuel r.1 (sent ++ [r.2])

/-- The outer loop of copy_from_ffmpeg_to_client.  reads models the
transcoder's stdout: reads k is the k-th chunk handed back by read, and an
empty chunk is end-of-file.  The body mirrors the source: read a chunk; if
its length is zero, continue (that is the EOF case in the source); else
write it into the buffer and drain.  The loop has no terminating branch,
exactly like the source's loop, so a result is produced only when the fuel
runs out (none = the loop is still running after that many iterations). -/
def copyLoop {σ : Type} (D : DecoderFn σ) (reads : Nat → List Nat) : Nat → Nat → StreamState σ → Nat → List (List Nat) → Option (List (List Nat))
  | 0, _, _, _, _ => none
  | fuel + 1, k, s, off, sent =>
    let chunk := reads k
    if chunk.length = 0 then copyLoop D reads fuel (k + 1) s off sent
    else
      match write D (fuel + 1) s chunk with
      | none => none
      | some s1 =>
        match drainLoop s1 (fuel + 1) off sent with
        | none => none
        | some (off1, sent1) => copyLoop D reads fuel (k + 1) s1 off1 sent1

/-- A rendition from the master manifest (hls_m3u8 stream_inf tag): its
optional vertical resolution and an opaque identifier standing for its URI. -/
structure Rendition where
  resolution : Option Nat
  uri : Nat
deriving DecidableEq, Repr

/-- The sort key used by get_variant_playlist_url:
sort_by_key(s.resolution().map(r.height)) sorts Option values with None
first, then by height; encoded into Nat as none to 0, some h to h + 1. -/
def renditionKey (r : Rendition) : Nat :=
  match r.resolution with
  | none => 0
  | some h => h + 1

/-- The find predicate in get_variant_playlist_url: the height is cast to
u32 (height as u32) before comparing with minimum_resolution, so the
comparison truncates the height modulo 2 to the 32. -/
def qualifiesCode (minRes : Nat) (r : Rendition) : Bool :=
  match r.resolution with
  | some h => decide (minRes ≤ h % 4294967296)
  | none => false

/-- The rendition-selection core of get_variant_playlist_url in main.rs:
sort ascending by the Option-height key, pop the last (highest) rendition,
scan the rest in ascending order for the first whose truncated height is
at least minimum_resolution, and fall back to the popped highest; none
models the eyre error when no rendition exists at all. -/
def get_variant_playlist_url (renditions : List Rendition) (minRes : Nat) : Option Rendition :=
  let sorted := List.insertionSort (fun a b => renditionKey a ≤ renditionKey b) renditions
  let highest_rendition := sorted.getLast?
  let rest := sorted.dropLast
  match rest.find? (qualifiesCode minRes) with
  | some r => some r
  | none => highest_rendition

/-- Outcome of a checked (panic-tracking) computation: crash marks a state
where the Rust source would panic (out-of-bounds slice, usize underflow,
or unwrap of None), fuelOut marks exhausted fuel. -/
inductive CRes (α : Type) where
  | crash
  | fuelOut
  | ok (a : α)
deriving DecidableEq, Repr

/-- Map over a checked result. -/
def CRes.map {α β : Type} (f : α → β) : CRes α → CRes β
  | crash => crash
  | fuelOut => fuelOut
  | ok a => ok (f a)

/-- Checked eviction loop: none when the source would panic, i.e. when the
front/back unwraps fail (empty deque) or when the usize subtraction
last.offset - first.offset underflows. -/
def evictLoopC : List Blob → Option (List Blob)
  | [] => none
  | f :: rest =>
    let lastB := (f :: rest).getLast (List.cons_ne_nil f rest)
    if lastB.offset < f.offset then none
    else if lastB.offset - f.offset < 1048576 then some (f :: rest)
    else evictLoopC rest

/-- Checked finish_frame. -/
def finish_frameC {σ : Type} (s : StreamState σ) : Option (StreamState σ) :=
  let b : Blob := ⟨s.offset, s.pendingFrame⟩
  (evictLoopC (s.frames ++ [b])).map
    (fun fr =>
      { s with
        pendingFrame := []
        offset := s.offset + s.pendingFrame.length
        frames := fr
        history := s.history ++ [b] })

/-- Checked consume: crash when the decoder reports more consumed bytes
than it was given (the slices data[..n] and data[n..] would panic), or
when the checked finish_frame crashes. -/
def consumeC {σ : Type} (D : DecoderFn σ) : Nat → StreamState σ → List Nat → CRes (StreamState σ × Nat)
  | 0, _, _ => CRes.fuelOut
  | fuel + 1, s, d =>
    match D s.decoder d with
    | (n, ev, dec) =>
      if d.length < n then CRes.crash
      else
        match ev with
        | Decoded.nothing =>
          CRes.ok ({ s with decoder := dec, decoded := s.decoded ++ d.take n }, n)
        | Decoded.dataEnd =>
          match finish_frameC (add_to_frame { s with decoder := dec } (d.take n)) with
          | none => CRes.crash
          | some s2 => (consumeC D fuel s2 (d.drop n)).map (fun r => (r.1, n + r.2))
        | Decoded.other =>
          (consumeC D fuel (add_to_preamble { s with decoder := dec } (d.take n)) (d.drop n)).map
            (fun r => (r.1, n + r.2))
        | _ =>
          (consumeC D fuel (add_to_frame { s with decoder := dec } (d.take n)) (d.drop n)).map
            (fun r => (r.1, n + r.2))

/-- Checked version of the advancing write loop. -/
def writeLoopAC {σ : Type} (D : DecoderFn σ) : Nat → StreamState σ → List Nat → CRes (StreamState σ × List Nat)
  | 0, _, _ => CRes.fuelOut
  | fuel + 1, s, d =>
    match consumeC D (fuel + 1) s d with
    | CRes.crash => CRes.crash
    | CRes.fuelOut => CRes.fuelOut
    | CRes.ok (s1, n) =>
      if n = 0 then CRes.ok (s1, d)
      else writeLoopAC D fuel s1 (d.drop n)

/-- Checked version of the non-advancing write loop. -/
def writeLoopBC {σ : Type} (D : DecoderFn σ) : Nat → StreamState σ → List Nat → CRes (StreamState σ)
  | 0, _, _ => CRes.fuelOut
  | fuel + 1, s, d =>
    match consumeC D (fuel + 1) s d with
    | CRes.crash => CRes.crash
    | CRes.fuelOut => CRes.fuelOut
    | CRes.ok (s1, n) =>
      if n = 0 then CRes.ok s1
      else writeLoopBC D fuel s1 d

/-- Checked Stream::write. -/
def writeC {σ : Type} (D : DecoderFn σ) (fuel : Nat) (s : StreamState σ) (d : List Nat) : CRes (StreamState σ) :=
  if s.undecoded.length = 0 then
    match writeLoopAC D fuel s d with
    | CRes.crash => CRes.crash
    | CRes.fuelOut => CRes.fuelOut
    | CRes.ok (s1, rest) => CRes.ok { s1 with undecoded := s1.undecoded ++ rest }
  else
    let full := s.undecoded ++ d
    match writeLoopBC D fuel { s with undecoded := [] } full with
    | CRes.crash => CRes.crash
    | CRes.fuelOut => CRes.fuelOut
    | CRes.ok s1 => CRes.ok { s1 with undecoded := s1.undecoded ++ full }

/-- Checked newest-to-oldest frame scan: the outer none is a crash (an
out-of-bounds slice into the frame data), the inner none the fall-through. -/
def findFrameRevC (off : Nat) : List Blob → Option (Option (Nat × List Nat))
  | [] => some none
  | f :: rest =>
    if off < f.offset then findFrameRevC off rest
    else if f.offset + f.data.length ≤ off then some (some (off, []))
    else if f.data.length < off - f.offset then none
    else some (some (f.offset + f.data.length, f.data.drop (off - f.offset)))

/-- Checked Stream::read_after: none marks a would-panic slice. -/
def read_afterC {σ : Type} (s : StreamState σ) (off : Nat) : Option (Nat × List Nat) :=
  if s.offset ≤ off then some (off, [])
  else if off < s.preamble.length then
    if s.preamble.length < off then none
    else some (s.preamble.length, s.preamble.drop off)
  else
    match findFrameRevC off s.frames.reverse with
    | none => none
    | some (some r) => some r
    | some none =>
      match s.frames with
      | [] => some (off, [])
      | f :: _ => some (f.offset + f.data.length, f.data)

/-- Contiguity of the retained frames: starting at logical position k,
each frame starts exactly where announced and the next frame starts at
its end. -/
def Contig : Nat → List Blob → Prop
  | _, [] => True
  | k, f :: rest => f.offset = k ∧ Contig (f.offset + f.data.length) rest

/-- Position one past the end of a contiguous chain starting at k. -/
def chainEnd : Nat → List Blob → Nat
  | k, [] => k
  | _, f :: rest => chainEnd (f.offset + f.data.length) rest

/-- Sum of the data lengths of a list of frames. -/
def sumLens (l : List Blob) : Nat :=
  (l.map (fun b => b.data.length)).sum

/-- The cursor sits exactly at the end of the newest retained frame, or at
the preamble's end when no frame has ever been finalized. -/
def lastEndOk {σ : Type} (s : StreamState σ) : Prop :=
  match s.frames.getLast? with
  | none => s.offset = s.preamble.length
  | some b => s.offset = b.offset + b.data.length

/-- The eviction bound as the source enforces it: the difference between
the newest and the oldest retained frame's starting offsets stays under
1 MiB. -/
def spanOk (l : List Blob) : Prop :=
  ∀ a b, l.head? = some a → l.getLast? = some b → b.offset - a.offset < 1048576

/-- Structural invariant of reachable buffer states. -/
structure Inv {σ : Type} (s : StreamState σ) : Prop where
  contig : ∃ k, s.preamble.length ≤ k ∧ Contig k s.frames
  lastEnd : lastEndOk s
  histSum : s.offset = s.preamble.length + sumLens s.history
  span : spanOk s.frames

/-- Every retained frame is nonempty (holds for decoders satisfying the
spec's event-source contract). -/
def FramesNE {σ : Type} (s : StreamState σ) : Prop :=
  ∀ f ∈ s.frames, f.data ≠ []

/-- The eviction bound exactly as claim C4 words it: the span from the
oldest retained frame's first byte to the newest retained frame's last
byte is at most 1 MiB, except when the window holds a single frame larger
than the cap. -/
def spanToEndOk {σ : Type} (s : StreamState σ) : Prop :=
  ∀ a b, s.frames.head? = some a → s.frames.getLast? = some b →
    (b.offset + b.data.length - a.offset ≤ 1048576 ∨
      (s.frames.length = 1 ∧ 1048576 < a.data.length))

/-- Qualification as claim C9 words it: the rendition's true height is at
least the minimum (no truncation). -/
def claimQual (minRes : Nat) (r : Rendition) : Prop :=
  match r.resolution with
  | some h => minRes ≤ h
  | none => False

instance : ∀ minRes r, Decidable (claimQual minRes r) := by
  intro minRes r
  unfold claimQual
  match r.resolution with
  | some h => exact inferInstanceAs (Decidable (minRes ≤ h))
  | none => exact inferInstanceAs (Decidable False)

/-- The selection property exactly as claim C9 words it: the selected
rendition is the lowest-resolution one whose (true) height is at least the
minimum, or, when no rendition qualifies, the highest-resolution one. -/
def claimSelects (renditions : List Rendition) (minRes : Nat) (r : Rendition) : Prop :=
  (claimQual minRes r ∧ ∀ q ∈ renditions, claimQual minRes q → renditionKey r ≤ renditionKey q) ∨
    ((∀ q ∈ renditions, ¬claimQual minRes q) ∧ ∀ q ∈ renditions, renditionKey q ≤ renditionKey r)

instance : ∀ rens minRes r, Decidable (claimSelects rens minRes r) := by
  intro rens minRes r
  unfold claimSelects
  exact inferInstance

/-- Conversion from the fuel-indexed unchecked result to a checked result:
an unchecked run that finishes is ok, one that runs out of fuel is fuelOut,
and the unchecked semantics never crashes by construction. -/
def cvt {α : Type} : Option α → CRes α
  | none => CRes.fuelOut
  | some a => CRes.ok a

/-- Script for the chunk-equivalence counterexample: three preamble events
of two bytes each. -/
def sc1 : Script := [(2, Decoded.other), (2, Decoded.other), (2, Decoded.other)]

/-- Script for the carry counterexample: one preamble event of two bytes. -/
def sc2 : Script := [(2, Decoded.other)]

/-- Script for the late-unclassified-bytes counterexample: one byte
consumed without an event, then a one-byte preamble event. -/
def sc5 : Script := [(1, Decoded.nothing), (1, Decoded.other)]

/-- Script for a one-frame run. -/
def sc6 : Script := [(1, Decoded.dataEnd)]

/-- Buffer state after writing the single byte 5 through sc6. -/
def st6 : StreamState Script :=
  ⟨[], [⟨0, [5]⟩], 1, [], [], [], [], [⟨0, [5]⟩]⟩

/-- Script for the add-to-preamble step witness. -/
def scW5 : Script := [(1, Decoded.other)]

/-- Script for the eviction-bound counterexample: a 10-byte frame followed
by a 1 MiB frame. -/
def sc4 : Script := [(10, Decoded.dataEnd), (1048576, Decoded.dataEnd)]

/-- Input for the eviction-bound counterexample. -/
def in4 : List Nat := List.replicate 1048586 0

/-- Buffer state after writing in4 through sc4: both frames retained, the
start-to-start span is 10 but the start-to-end span is 1048586. -/
def st4 : StreamState Script :=
  ⟨[], [⟨0, List.replicate 10 0⟩, ⟨10, List.replicate 1048576 0⟩], 1048586,
    [], [], [], [], [⟨0, List.replicate 10 0⟩, ⟨10, List.replicate 1048576 0⟩]⟩

/-- Script producing frames of 1 MiB, 3 and 4 bytes; the first frame gets
evicted when the second is finalized. -/
def sc7 : Script := [(1048576, Decoded.dataEnd), (3, Decoded.dataEnd), (4, Decoded.dataEnd)]

/-- Input for the eviction run. -/
def in7 : List Nat := List.replicate 1048583 0

/-- Buffer state after writing in7 through sc7: the 1 MiB frame has been
evicted, the 3-byte and 4-byte frames are retained. -/
def st7 : StreamState Script :=
  ⟨[], [⟨1048576, List.replicate 3 0⟩, ⟨1048579, List.replicate 4 0⟩], 1048583,
    [], [], [], [],
    [⟨0, List.replicate 1048576 0⟩, ⟨1048576, List.replicate 3 0⟩, ⟨1048579, List.replicate 4 0⟩]⟩

/-- Renditions for the selection counterexample: two heights at and just
above 2 to the 32. -/
def cex9 : List Rendition := [⟨some 4294967296, 0⟩, ⟨some 4294967301, 1⟩]

/-- The rendition the code actually selects on cex9 with minimum 1. -/
def r9 : Rendition := ⟨some 4294967301, 1⟩

instance : IsTotal Rendition (fun a b => renditionKey a ≤ renditionKey b) :=
  ⟨fun a b => Nat.le_total (renditionKey a) (renditionKey b)⟩

instance : IsTrans Rendition (fun a b => renditionKey a ≤ renditionKey b) :=
  ⟨fun _ _ _ hab hbc => Nat.le_trans hab hbc⟩

/-! Lemmas about the script decoder. -/

theorem scriptStep_fire {n : Nat} {ev : Decoded} {rest : Script} {l : List Nat}
    (h1 : 0 < n) (h2 : n ≤ l.length) :
    scriptStep ((n, ev) :: rest) l = (n, ev, rest) := by
  simp [scriptStep, h1, h2]

theorem scriptStep_le : DecLe scriptStep := by
  intro d l
  match d with
  | [] => exact Nat.zero_le _
  | (n, ev) :: rest =>
    by_cases h : 0 < n ∧ n ≤ l.length
    · simp only [scriptStep, if_pos h]
      exact h.2
    · simp only [scriptStep, if_neg h]
      exact Nat.zero_le _

theorem scriptStep_pos : DecPos scriptStep := by
  intro d l
  match d with
  | [] => intro h; exact absurd rfl h
  | (n, ev) :: rest =>
    by_cases h : 0 < n ∧ n ≤ l.length
    · simp only [scriptStep, if_pos h]
      intro _
      exact h.1
    · simp only [scriptStep, if_neg h]
      intro hc
      exact absurd rfl hc

/-! Step equations for consume, one per event kind. -/

theorem consume_succ_nothing {σ : Type} {D : DecoderFn σ} {fuel : Nat}
    {s : StreamState σ} {d : List Nat} {n : Nat} {dec : σ}
    (h : D s.decoder d = (n, Decoded.nothing, dec)) :
    consume D (fuel + 1) s d =
      some ({ s with decoder := dec, decoded := s.decoded ++ d.take n }, n) := by
  rw [consume, h]

theorem consume_succ_dataEnd {σ : Type} {D : DecoderFn σ} {fuel : Nat}
    {s : StreamState σ} {d : List Nat} {n : Nat} {dec : σ}
    (h : D s.decoder d = (n, Decoded.dataEnd, dec)) :
    consume D (fuel + 1) s d =
      (consume D fuel (finish_frame (add_to_frame { s with decoder := dec } (d.take n))) (d.drop n)).map
        (fun r => (r.1, n + r.2)) := by
  rw [consume, h]

theorem consume_succ_other {σ : Type} {D : DecoderFn σ} {fuel : Nat}
    {s : StreamState σ} {d : List Nat} {n : Nat} {dec : σ}
    (h : D s.decoder d = (n, Decoded.other, dec)) :
    consume D (fuel + 1) s d =
      (consume D fuel (add_to_preamble { s with decoder := dec } (d.take n)) (d.drop n)).map
        (fun r => (r.1, n + r.2)) := by
  rw [consume, h]

theorem consume_succ_interior {σ : Type} {D : DecoderFn σ} {fuel : Nat}
    {s : StreamState σ} {d : List Nat} {n : Nat} {dec : σ} {ev : Decoded}
    (h : D s.decoder d = (n, ev, dec))
    (hev : ev = Decoded.blockStart ∨ ev = Decoded.subBlockFinished ∨
      ev = Decoded.blockFinished ∨ ev = Decoded.frame ∨ ev = Decoded.data) :
    consume D (fuel + 1) s d =
      (consume D fuel (add_to_frame { s with decoder := dec } (d.take n)) (d.drop n)).map
        (fun r => (r.1, n + r.2)) := by
  rcases hev with rfl | rfl | rfl | rfl | rfl <;> rw [consume, h]

/-! Lemmas about contiguous frame chains and the eviction loop. -/

theorem contig_mono {k : Nat} {l : List Blob} (h : Contig k l) :
    ∀ f ∈ l, k ≤ f.offset := by
  induction l generalizing k with
  | nil => intro f hf; cases hf
  | cons g rest ih =>
    intro f hf
    rcases List.mem_cons.mp hf with rfl | hf
    · exact le_of_eq h.1.symm
    · calc k = g.offset := h.1.symm
        _ ≤ g.offset + g.data.length := Nat.le_add_right _ _
        _ ≤ f.offset := ih h.2 f hf

theorem contig_snoc {k : Nat} {l : List Blob} {o : Nat} (d : List Nat)
    (h : Contig k l)
    (h0 : l = [] → o = k)
    (h1 : ∀ b, l.getLast? = some b → o = b.offset + b.data.length) :
    Contig k (l ++ [⟨o, d⟩]) := by
  induction l generalizing k with
  | nil => exact ⟨h0 rfl, trivial⟩
  | cons g rest ih =>
    refine ⟨h.1, ih h.2 ?_ ?_⟩
    · intro hr
      subst hr
      exact h1 g rfl
    · intro b hb
      apply h1
      match rest, hb with
      | r :: t, hb => exact hb

theorem contig_suffix {k : Nat} {l1 l2 : List Blob} (h : Contig k (l1 ++ l2)) :
    ∃ k2, k ≤ k2 ∧ Contig k2 l2 := by
  induction l1 generalizing k with
  | nil => exact ⟨k, le_refl k, h⟩
  | cons g rest ih =>
    obtain ⟨k2, hk2, hc⟩ := ih h.2
    refine ⟨k2, ?_, hc⟩
    calc k = g.offset := h.1.symm
      _ ≤ g.offset + g.data.length := Nat.le_add_right _ _
      _ ≤ k2 := hk2

theorem evictLoop_sub {l : List Blob} : ∀ f ∈ evictLoop l, f ∈ l := by
  induction l with
  | nil => intro f hf; rw [evictLoop] at hf; exact hf
  | cons g rest ih =>
    intro f hf
    rw [evictLoop] at hf
    by_cases hc : ((g :: rest).getLast (List.cons_ne_nil g rest)).offset - g.offset < 1048576
    · rw [if_pos hc] at hf; exact hf
    · rw [if_neg hc] at hf
      exact List.mem_cons_of_mem g (ih f hf)

theorem evictLoop_suffix {l : List Blob} : ∃ t, l = t ++ evictLoop l := by
  induction l with
  | nil => exact ⟨[], rfl⟩
  | cons g rest ih =>
    rw [evictLoop]
    by_cases hc : ((g :: rest).getLast (List.cons_ne_nil g rest)).offset - g.offset < 1048576
    · exact ⟨[], by rw [if_pos hc]; rfl⟩
    · obtain ⟨t, ht⟩ := ih
      exact ⟨g :: t, by rw [if_neg hc, List.cons_append, ← ht]⟩

theorem evictLoop_ne_nil {l : List Blob} (h : l ≠ []) : evictLoop l ≠ [] := by
  induction l with
  | nil => exact absurd rfl h
  | cons g rest ih =>
    rw [evictLoop]
    by_cases hc : ((g :: rest).getLast (List.cons_ne_nil g rest)).offset - g.offset < 1048576
    · rw [if_pos hc]; exact List.cons_ne_nil g rest
    · rw [if_neg hc]
      apply ih
      intro hr
      subst hr
      simp [List.getLast] at hc

theorem evictLoop_getLast {l : List Blob} (h : l ≠ []) :
    (evictLoop l).getLast? = l.getLast? := by
  induction l with
  | nil => exact absurd rfl h
  | cons g rest ih =>
    rw [evictLoop]
    by_cases hc : ((g :: rest).getLast (List.cons_ne_nil g rest)).offset - g.offset < 1048576
    · rw [if_pos hc]
    · rw [if_neg hc]
      have hrest : rest ≠ [] := by
        intro hr
        subst hr
        simp [List.getLast] at hc
      rw [ih hrest]
      match rest, hrest with
      | r :: t, _ => rfl

theorem evictLoop_span {l : List Blob} (h : l ≠ []) : spanOk (evictLoop l) := by
  induction l with
  | nil => exact absurd rfl h
  | cons g rest ih =>
    rw [evictLoop]
    by_cases hc : ((g :: rest).getLast (List.cons_ne_nil g rest)).offset - g.offset < 1048576
    · rw [if_pos hc]
      intro a b ha hb
      have ha' : a = g := by
        simp only [List.head?_cons, Option.some.injEq] at ha
        exact ha.symm
      have hb' : b = (g :: rest).getLast (List.cons_ne_nil g rest) := by
        rw [List.getLast?_eq_getLast _ (List.cons_ne_nil g rest)] at hb
        exact (Option.some_injective _ hb).symm
      subst ha'
      subst hb'
      exact hc
    · rw [if_neg hc]
      apply ih
      intro hr
      subst hr
      simp [List.getLast] at hc

/-! Preservation of the structural invariant. -/

theorem sumLens_append {l : List Blob} {b : Blob} :
    sumLens (l ++ [b]) = sumLens l + b.data.length := by
  simp [sumLens]

theorem inv_of_eq_fields {σ : Type} {s t : StreamState σ} (h : Inv s)
    (h1 : t.preamble = s.preamble) (h2 : t.frames = s.frames)
    (h3 : t.offset = s.offset) (h4 : t.history = s.history) : Inv t := by
  obtain ⟨hcg, hle, hhs, hsp⟩ := h
  constructor
  · rw [h1, h2]; exact hcg
  · unfold lastEndOk at hle ⊢
    rw [h1, h2, h3]
    exact hle
  · rw [h1, h3, h4]; exact hhs
  · rw [h2]; exact hsp

theorem inv_init {σ : Type} (d : σ) : Inv (init d) := by
  constructor
  · exact ⟨0, Nat.le_refl 0, trivial⟩
  · simp [lastEndOk, init]
  · simp [init, sumLens]
  · intro a b ha hb
    simp [init] at ha

theorem inv_add_to_frame {σ : Type} {s : StreamState σ} {d : List Nat} (h : Inv s) :
    Inv (add_to_frame s d) :=
  inv_of_eq_fields h rfl rfl rfl rfl

theorem inv_decoder {σ : Type} {s : StreamState σ} {dec : σ} (h : Inv s) :
    Inv { s with decoder := dec } :=
  inv_of_eq_fields h rfl rfl rfl rfl

theorem inv_add_to_preamble {σ : Type} {s : StreamState σ} {d : List Nat} (h : Inv s) :
    Inv (add_to_preamble s d) := by
  by_cases hg : 0 < s.frames.length ∨ 0 < s.pendingFrame.length
  · rw [add_to_preamble, if_pos hg]; exact h
  · rw [add_to_preamble, if_neg hg]
    push_neg at hg
    have hfr : s.frames = [] := by
      have h1 := hg.1
      exact List.length_eq_zero.mp (Nat.le_zero.mp h1)
    have hoff : s.offset = s.preamble.length := by
      have hle := h.lastEnd
      unfold lastEndOk at hle
      rw [hfr] at hle
      exact hle
    constructor
    · refine ⟨(s.preamble ++ d).length, Nat.le_refl _, ?_⟩
      show Contig _ s.frames
      rw [hfr]
      trivial
    · show lastEndOk _
      unfold lastEndOk
      show (match s.frames.getLast? with
        | none => s.offset + d.length = (s.preamble ++ d).length
        | some b => s.offset + d.length = b.offset + b.data.length)
      rw [hfr]
      simp [hoff]
    · show s.offset + d.length = (s.preamble ++ d).length + sumLens s.history
      have hh := h.histSum
      simp only [List.length_append]
      omega
    · show spanOk s.frames
      rw [hfr]
      intro a b ha hb
      simp at ha

theorem inv_finish_frame {σ : Type} {s : StreamState σ} (h : Inv s) :
    Inv (finish_frame s) := by
  have hsnoc : ∃ k, s.preamble.length ≤ k ∧
      Contig k (s.frames ++ [(⟨s.offset, s.pendingFrame⟩ : Blob)]) := by
    by_cases hn : s.frames = []
    · refine ⟨s.offset, ?_, ?_⟩
      · have hh := h.histSum
        omega
      · rw [hn]
        exact ⟨rfl, trivial⟩
    · obtain ⟨k, hk, hc⟩ := h.contig
      refine ⟨k, hk, contig_snoc _ hc (fun he => absurd he hn) ?_⟩
      intro g hg
      have hle := h.lastEnd
      unfold lastEndOk at hle
      rw [hg] at hle
      exact hle
  have hne : s.frames ++ [(⟨s.offset, s.pendingFrame⟩ : Blob)] ≠ [] := by simp
  constructor
  · obtain ⟨k, hk, hc⟩ := hsnoc
    obtain ⟨t, ht⟩ := evictLoop_suffix (l := s.frames ++ [(⟨s.offset, s.pendingFrame⟩ : Blob)])
    rw [ht] at hc
    obtain ⟨k2, hk2, hc2⟩ := contig_suffix hc
    exact ⟨k2, le_trans hk hk2, hc2⟩
  · have hgl : (evictLoop (s.frames ++ [(⟨s.offset, s.pendingFrame⟩ : Blob)])).getLast?
        = some (⟨s.offset, s.pendingFrame⟩ : Blob) := by
      rw [evictLoop_getLast hne, List.getLast?_concat]
    show (match (evictLoop (s.frames ++ [(⟨s.offset, s.pendingFrame⟩ : Blob)])).getLast? with
      | none => s.offset + s.pendingFrame.length = s.preamble.length
      | some g => s.offset + s.pendingFrame.length = g.offset + g.data.length)
    rw [hgl]
  · show s.offset + s.pendingFrame.length =
      s.preamble.length + sumLens (s.history ++ [(⟨s.offset, s.pendingFrame⟩ : Blob)])
    rw [sumLens_append]
    have hh := h.histSum
    show s.offset + s.pendingFrame.length =
      s.preamble.length + (sumLens s.history + s.pendingFrame.length)
    omega
  · show spanOk (evictLoop (s.frames ++ [(⟨s.offset, s.pendingFrame⟩ : Blob)]))
    exact evictLoop_span hne

theorem inv_consume {σ : Type} {D : DecoderFn σ} :
    ∀ {fuel : Nat} {s : StreamState σ} {d : List Nat} {s' : StreamState σ} {n : Nat},
      Inv s → consume D fuel s d = some (s', n) → Inv s' := by
  intro fuel
  induction fuel with
  | zero =>
    intro s d s' n _ hstep
    rw [consume] at hstep
    cases hstep
  | succ fuel ih =>
    intro s d s' n h hstep
    rcases hD : D s.decoder d with ⟨n0, ev, dec⟩
    cases ev
    case nothing =>
      rw [consume_succ_nothing hD] at hstep
      obtain ⟨h1, h2⟩ := Prod.mk.injEq .. ▸ Option.some.injEq .. ▸ hstep
      rw [← h1]
      exact inv_of_eq_fields h rfl rfl rfl rfl
    case dataEnd =>
      rw [consume_succ_dataEnd hD] at hstep
      obtain ⟨r, hr, hrq⟩ := Option.map_eq_some'.mp hstep
      have h2 : Inv r.1 := ih (inv_finish_frame (inv_add_to_frame (inv_decoder h))) hr
      have h3 : r.1 = s' := congrArg Prod.fst hrq
      rw [← h3]
      exact h2
    case other =>
      rw [consume_succ_other hD] at hstep
      obtain ⟨r, hr, hrq⟩ := Option.map_eq_some'.mp hstep
      have h2 : Inv r.1 := ih (inv_add_to_preamble (inv_decoder h)) hr
      have h3 : r.1 = s' := congrArg Prod.fst hrq
      rw [← h3]
      exact h2
    all_goals {
      rw [consume_succ_interior hD (by simp)] at hstep
      obtain ⟨r, hr, hrq⟩ := Option.map_eq_some'.mp hstep
      have h2 : Inv r.1 := ih (inv_add_to_frame (inv_decoder h)) hr
      have h3 : r.1 = s' := congrArg Prod.fst hrq
      rw [← h3]
      exact h2
    }

theorem inv_writeLoopA {σ : Type} {D : DecoderFn σ} :
    ∀ {fuel : Nat} {s : StreamState σ} {d : List Nat} {s' : StreamState σ} {rest : List Nat},
      Inv s → writeLoopA D fuel s d = some (s', rest) → Inv s' := by
  intro fuel
  induction fuel with
  | zero =>
    intro s d s' rest _ hstep
    rw [writeLoopA] at hstep
    cases hstep
  | succ fuel ih =>
    intro s d s' rest h hstep
    rw [writeLoopA] at hstep
    rcases hcons : consume D (fuel + 1) s d with _ | ⟨s1, n⟩
    · rw [hcons] at hstep
      cases hstep
    · rw [hcons] at hstep
      dsimp only at hstep
      by_cases hn : n = 0
      · rw [if_pos hn] at hstep
        have h1 : s1 = s' := congrArg Prod.fst (Option.some.injEq .. ▸ hstep)
        rw [← h1]
        exact inv_consume h hcons
      · rw [if_neg hn] at hstep
        exact ih (inv_consume h hcons) hstep

theorem inv_writeLoopB {σ : Type} {D : DecoderFn σ} :
    ∀ {fuel : Nat} {s : StreamState σ} {d : List Nat} {s' : StreamState σ},
      Inv s → writeLoopB D fuel s d = some s' → Inv s' := by
  intro fuel
  induction fuel with
  | zero =>
    intro s d s' _ hstep
    rw [writeLoopB] at hstep
    cases hstep
  | succ fuel ih =>
    intro s d s' h hstep
    rw [writeLoopB] at hstep
    rcases hcons : consume D (fuel + 1) s d with _ | ⟨s1, n⟩
    · rw [hcons] at hstep
      cases hstep
    · rw [hcons] at hstep
      dsimp only at hstep
      by_cases hn : n = 0
      · rw [if_pos hn] at hstep
        cases hstep
        exact inv_consume h hcons
      · rw [if_neg hn] at hstep
        exact ih (inv_consume h hcons) hstep

theorem inv_write {σ : Type} {D : DecoderFn σ} {fuel : Nat}
    {s : StreamState σ} {d : List Nat} {s' : StreamState σ}
    (h : Inv s) (hstep : write D fuel s d = some s') : Inv s' := by
  rw [write] at hstep
  by_cases hu : s.undecoded.length = 0
  · rw [if_pos hu] at hstep
    rcases hla : writeLoopA D fuel s d with _ | ⟨s1, rest⟩
    · rw [hla] at hstep
      cases hstep
    · rw [hla] at hstep
      cases hstep
      exact inv_of_eq_fields (inv_writeLoopA h hla) rfl rfl rfl rfl
  · rw [if_neg hu] at hstep
    dsimp only at hstep
    rcases hlb : writeLoopB D fuel { s with undecoded := ([] : List Nat) } (s.undecoded ++ d)
      with _ | s1
    · rw [hlb] at hstep
      cases hstep
    · rw [hlb] at hstep
      cases hstep
      have h0 : Inv { s with undecoded := ([] : List Nat) } := inv_of_eq_fields h rfl rfl rfl rfl
      have h1 : Inv s1 := inv_writeLoopB h0 hlb
      exact inv_of_eq_fields h1 rfl rfl rfl rfl

theorem inv_writeSeq {σ : Type} {D : DecoderFn σ} {fuel : Nat} :
    ∀ {s : StreamState σ} {chunks : List (List Nat)} {s' : StreamState σ},
      Inv s → writeSeq D fuel s chunks = some s' → Inv s' := by
  intro s chunks
  induction chunks generalizing s with
  | nil =>
    intro s' h hstep
    rw [writeSeq] at hstep
    cases hstep
    exact h
  | cons c cs ih =>
    intro s' h hstep
    rw [writeSeq] at hstep
    rcases hw : write D fuel s c with _ | s1
    · rw [hw] at hstep
      cases hstep
    · rw [hw] at hstep
      exact ih (inv_write h hw) hstep

/-! Monotonicity of the cursor. -/

theorem offset_le_add_to_frame {σ : Type} (s : StreamState σ) (d : List Nat) :
    s.offset ≤ (add_to_frame s d).offset :=
  Nat.le_refl _

theorem offset_le_add_to_preamble {σ : Type} (s : StreamState σ) (d : List Nat) :
    s.offset ≤ (add_to_preamble s d).offset := by
  by_cases hg : 0 < s.frames.length ∨ 0 < s.pendingFrame.length
  · rw [add_to_preamble, if_pos hg]
  · rw [add_to_preamble, if_neg hg]
    exact Nat.le_add_right _ _

theorem offset_le_finish_frame {σ : Type} (s : StreamState σ) :
    s.offset ≤ (finish_frame s).offset :=
  Nat.le_add_right _ _

theorem offset_le_consume {σ : Type} {D : DecoderFn σ} :
    ∀ {fuel : Nat} {s : StreamState σ} {d : List Nat} {s' : StreamState σ} {n : Nat},
      consume D fuel s d = some (s', n) → s.offset ≤ s'.offset := by
  intro fuel
  induction fuel with
  | zero =>
    intro s d s' n hstep
    rw [consume] at hstep
    cases hstep
  | succ fuel ih =>
    intro s d s' n hstep
    rcases hD : D s.decoder d with ⟨n0, ev, dec⟩
    cases ev
    case nothing =>
      rw [consume_succ_nothing hD] at hstep
      have h1 : _ = s' := congrArg Prod.fst (Option.some.injEq .. ▸ hstep)
      rw [← h1]
    case dataEnd =>
      rw [consume_succ_dataEnd hD] at hstep
      obtain ⟨r, hr, hrq⟩ := Option.map_eq_some'.mp hstep
      have h3 : r.1 = s' := congrArg Prod.fst hrq
      calc s.offset
          = (add_to_frame { s with decoder := dec } (d.take n0)).offset := rfl
        _ ≤ (finish_frame (add_to_frame { s with decoder := dec } (d.take n0))).offset :=
            offset_le_finish_frame _
        _ ≤ r.1.offset := ih hr
        _ = s'.offset := by rw [h3]
    case other =>
      rw [consume_succ_other hD] at hstep
      obtain ⟨r, hr, hrq⟩ := Option.map_eq_some'.mp hstep
      have h3 : r.1 = s' := congrArg Prod.fst hrq
      calc s.offset
          = ({ s with decoder := dec } : StreamState σ).offset := rfl
        _ ≤ (add_to_preamble { s with decoder := dec } (d.take n0)).offset :=
            offset_le_add_to_preamble _ _
        _ ≤ r.1.offset := ih hr
        _ = s'.offset := by rw [h3]
    all_goals {
      rw [consume_succ_interior hD (by simp)] at hstep
      obtain ⟨r, hr, hrq⟩ := Option.map_eq_some'.mp hstep
      have h3 : r.1 = s' := congrArg Prod.fst hrq
      calc s.offset
          = (add_to_frame { s with decoder := dec } (d.take n0)).offset := rfl
        _ ≤ r.1.offset := ih hr
        _ = s'.offset := by rw [h3]
    }

theorem offset_le_writeLoopA {σ : Type} {D : DecoderFn σ} :
    ∀ {fuel : Nat} {s : StreamState σ} {d : List Nat} {s' : StreamState σ} {rest : List Nat},
      writeLoopA D fuel s d = some (s', rest) → s.offset ≤ s'.offset := by
  intro fuel
  induction fuel with
  | zero =>
    intro s d s' rest hstep
    rw [writeLoopA] at hstep
    cases hstep
  | succ fuel ih =>
    intro s d s' rest hstep
    rw [writeLoopA] at hstep
    rcases hcons : consume D (fuel + 1) s d with _ | ⟨s1, n⟩
    · rw [hcons] at hstep
      cases hstep
    · rw [hcons] at hstep
      dsimp only at hstep
      by_cases hn : n = 0
      · rw [if_pos hn] at hstep
        have h1 : s1 = s' := congrArg Prod.fst (Option.some.injEq .. ▸ hstep)
        rw [← h1]
        exact offset_le_consume hcons
      · rw [if_neg hn] at hstep
        exact le_trans (offset_le_consume hcons) (ih hstep)

theorem offset_le_writeLoopB {σ : Type} {D : DecoderFn σ} :
    ∀ {fuel : Nat} {s : StreamState σ} {d : List Nat} {s' : StreamState σ},
      writeLoopB D fuel s d = some s' → s.offset ≤ s'.offset := by
  intro fuel
  induction fuel with
  | zero =>
    intro s d s' hstep
    rw [writeLoopB] at hstep
    cases hstep
  | succ fuel ih =>
    intro s d s' hstep
    rw [writeLoopB] at hstep
    rcases hcons : consume D (fuel + 1) s d with _ | ⟨s1, n⟩
    · rw [hcons] at hstep
      cases hstep
    · rw [hcons] at hstep
      dsimp only at hstep
      by_cases hn : n = 0
      · rw [if_pos hn] at hstep
        cases hstep
        exact offset_le_consume hcons
      · rw [if_neg hn] at hstep
        exact le_trans (offset_le_consume hcons) (ih hstep)

theorem offset_le_write {σ : Type} {D : DecoderFn σ} {fuel : Nat}
    {s : StreamState σ} {d : List Nat} {s' : StreamState σ}
    (hstep : write D fuel s d = some s') : s.offset ≤ s'.offset := by
  rw [write] at hstep
  by_cases hu : s.undecoded.length = 0
  · rw [if_pos hu] at hstep
    rcases hla : writeLoopA D fuel s d with _ | ⟨s1, rest⟩
    · rw [hla] at hstep
      cases hstep
    · rw [hla] at hstep
      cases hstep
      have h1 : s.offset ≤ s1.offset := offset_le_writeLoopA hla
      exact h1
  · rw [if_neg hu] at hstep
    dsimp only at hstep
    rcases hlb : writeLoopB D fuel { s with undecoded := ([] : List Nat) } (s.undecoded ++ d)
      with _ | s1
    · rw [hlb] at hstep
      cases hstep
    · rw [hlb] at hstep
      cases hstep
      have h1 : ({ s with undecoded := ([] : List Nat) } : StreamState σ).offset ≤ s1.offset :=
        offset_le_writeLoopB hlb
      exact h1

/-! Preservation of frame nonemptiness (under the event-source contract). -/

theorem framesNE_init {σ : Type} (d : σ) : FramesNE (init d) := by
  intro f hf
  simp [init] at hf

theorem framesNE_of_eq_frames {σ : Type} {s t : StreamState σ} (h : FramesNE s)
    (he : t.frames = s.frames) : FramesNE t := by
  intro f hf
  rw [he] at hf
  exact h f hf

theorem framesNE_add_to_preamble {σ : Type} {s : StreamState σ} {d : List Nat}
    (h : FramesNE s) : FramesNE (add_to_preamble s d) := by
  by_cases hg : 0 < s.frames.length ∨ 0 < s.pendingFrame.length
  · rw [add_to_preamble, if_pos hg]
    exact h
  · rw [add_to_preamble, if_neg hg]
    exact framesNE_of_eq_frames h rfl

theorem framesNE_finish_frame {σ : Type} {s : StreamState σ}
    (h : FramesNE s) (hp : s.pendingFrame ≠ []) : FramesNE (finish_frame s) := by
  intro f hf
  have hf2 : f ∈ s.frames ++ [(⟨s.offset, s.pendingFrame⟩ : Blob)] :=
    evictLoop_sub f hf
  rcases List.mem_append.mp hf2 with hf3 | hf3
  · exact h f hf3
  · have hfb : f = (⟨s.offset, s.pendingFrame⟩ : Blob) := by
      simpa using hf3
    rw [hfb]
    exact hp

theorem framesNE_consume {σ : Type} {D : DecoderFn σ}
    (hle : DecLe D) (hpos : DecPos D) :
    ∀ {fuel : Nat} {s : StreamState σ} {d : List Nat} {s' : StreamState σ} {n : Nat},
      FramesNE s → consume D fuel s d = some (s', n) → FramesNE s' := by
  intro fuel
  induction fuel with
  | zero =>
    intro s d s' n _ hstep
    rw [consume] at hstep
    cases hstep
  | succ fuel ih =>
    intro s d s' n h hstep
    rcases hD : D s.decoder d with ⟨n0, ev, dec⟩
    cases ev
    case nothing =>
      rw [consume_succ_nothing hD] at hstep
      have h1 : _ = s' := congrArg Prod.fst (Option.some.injEq .. ▸ hstep)
      rw [← h1]
      exact framesNE_of_eq_frames h rfl
    case dataEnd =>
      rw [consume_succ_dataEnd hD] at hstep
      obtain ⟨r, hr, hrq⟩ := Option.map_eq_some'.mp hstep
      have hn0 : 0 < n0 := by
        have := hpos s.decoder d
        rw [hD] at this
        exact this (by simp)
      have hlen : n0 ≤ d.length := by
        have := hle s.decoder d
        rw [hD] at this
        exact this
      have hp : (add_to_frame { s with decoder := dec } (d.take n0)).pendingFrame ≠ [] := by
        show s.pendingFrame ++ s.decoded ++ d.take n0 ≠ []
        have htk : (d.take n0).length = n0 := by
          rw [List.length_take]
          omega
        intro hcontra
        have := congrArg List.length hcontra
        simp [htk] at this
        omega
      have hNE : FramesNE (add_to_frame { s with decoder := dec } (d.take n0)) :=
        framesNE_of_eq_frames h rfl
      have h2 : FramesNE r.1 := ih (framesNE_finish_frame hNE hp) hr
      have h3 : r.1 = s' := congrArg Prod.fst hrq
      rw [← h3]
      exact h2
    case other =>
      rw [consume_succ_other hD] at hstep
      obtain ⟨r, hr, hrq⟩ := Option.map_eq_some'.mp hstep
      have hNE : FramesNE ({ s with decoder := dec } : StreamState σ) :=
        framesNE_of_eq_frames h rfl
      have h2 : FramesNE r.1 := ih (framesNE_add_to_preamble hNE) hr
      have h3 : r.1 = s' := congrArg Prod.fst hrq
      rw [← h3]
      exact h2
    all_goals {
      rw [consume_succ_interior hD (by simp)] at hstep
      obtain ⟨r, hr, hrq⟩ := Option.map_eq_some'.mp hstep
      have hNE : FramesNE (add_to_frame { s with decoder := dec } (d.take n0)) :=
        framesNE_of_eq_frames h rfl
      have h2 : FramesNE r.1 := ih hNE hr
      have h3 : r.1 = s' := congrArg Prod.fst hrq
      rw [← h3]
      exact h2
    }

theorem framesNE_writeLoopA {σ : Type} {D : DecoderFn σ}
    (hle : DecLe D) (hpos : DecPos D) :
    ∀ {fuel : Nat} {s : StreamState σ} {d : List Nat} {s' : StreamState σ} {rest : List Nat},
      FramesNE s → writeLoopA D fuel s d = some (s', rest) → FramesNE s' := by
  intro fuel
  induction fuel with
  | zero =>
    intro s d s' rest _ hstep
    rw [writeLoopA] at hstep
    cases hstep
  | succ fuel ih =>
    intro s d s' rest h hstep
    rw [writeLoopA] at hstep
    rcases hcons : consume D (fuel + 1) s d with _ | ⟨s1, n⟩
    · rw [hcons] at hstep
      cases hstep
    · rw [hcons] at hstep
      dsimp only at hstep
      by_cases hn : n = 0
      · rw [if_pos hn] at hstep
        have h1 : s1 = s' := congrArg Prod.fst (Option.some.injEq .. ▸ hstep)
        rw [← h1]
        exact framesNE_consume hle hpos h hcons
      · rw [if_neg hn] at hstep
        exact ih (framesNE_consume hle hpos h hcons) hstep

theorem framesNE_writeLoopB {σ : Type} {D : DecoderFn σ}
    (hle : DecLe D) (hpos : DecPos D) :
    ∀ {fuel : Nat} {s : StreamState σ} {d : List Nat} {s' : StreamState σ},
      FramesNE s → writeLoopB D fuel s d = some s' → FramesNE s' := by
  intro fuel
  induction fuel with
  | zero =>
    intro s d s' _ hstep
    rw [writeLoopB] at hstep
    cases hstep
  | succ fuel ih =>
    intro s d s' h hstep
    rw [writeLoopB] at hstep
    rcases hcons : consume D (fuel + 1) s d with _ | ⟨s1, n⟩
    · rw [hcons] at hstep
      cases hstep
    · rw [hcons] at hstep
      dsimp only at hstep
      by_cases hn : n = 0
      · rw [if_pos hn] at hstep
        cases hstep
        exact framesNE_consume hle hpos h hcons
      · rw [if_neg hn] at hstep
        exact ih (framesNE_consume hle hpos h hcons) hstep

theorem framesNE_write {σ : Type} {D : DecoderFn σ} {fuel : Nat}
    (hle : DecLe D) (hpos : DecPos D)
    {s : StreamState σ} {d : List Nat} {s' : StreamState σ}
    (h : FramesNE s) (hstep : write D fuel s d = some s') : FramesNE s' := by
  rw [write] at hstep
  by_cases hu : s.undecoded.length = 0
  · rw [if_pos hu] at hstep
    rcases hla : writeLoopA D fuel s d with _ | ⟨s1, rest⟩
    · rw [hla] at hstep
      cases hstep
    · rw [hla] at hstep
      cases hstep
      exact framesNE_of_eq_frames (framesNE_writeLoopA hle hpos h hla) rfl
  · rw [if_neg hu] at hstep
    dsimp only at hstep
    rcases hlb : writeLoopB D fuel { s with undecoded := ([] : List Nat) } (s.undecoded ++ d)
      with _ | s1
    · rw [hlb] at hstep
      cases hstep
    · rw [hlb] at hstep
      cases hstep
      have h0 : FramesNE { s with undecoded := ([] : List Nat) } := framesNE_of_eq_frames h rfl
      have h1 : FramesNE s1 := framesNE_writeLoopB hle hpos h0 hlb
      exact framesNE_of_eq_frames h1 rfl

theorem framesNE_writeSeq {σ : Type} {D : DecoderFn σ} {fuel : Nat}
    (hle : DecLe D) (hpos : DecPos D) :
    ∀ {s : StreamState σ} {chunks : List (List Nat)} {s' : StreamState σ},
      FramesNE s → writeSeq D fuel s chunks = some s' → FramesNE s' := by
  intro s chunks
  induction chunks generalizing s with
  | nil =>
    intro s' h hstep
    rw [writeSeq] at hstep
    cases hstep
    exact h
  | cons c cs ih =>
    intro s' h hstep
    rw [writeSeq] at hstep
    rcases hw : write D fuel s c with _ | s1
    · rw [hw] at hstep
      cases hstep
    · rw [hw] at hstep
      exact ih (framesNE_write hle hpos h hw) hstep

/-! Lemmas characterising read_after on reachable states. -/

theorem getLast?_cons_ne {f : Blob} {rest : List Blob} (h : rest ≠ []) :
    (f :: rest).getLast? = rest.getLast? := by
  match rest, h with
  | g :: t, _ => rfl

theorem findFrameRev_none {off : Nat} {l : List Blob}
    (h : ∀ g ∈ l, off < g.offset) : findFrameRev off l = none := by
  induction l with
  | nil => rfl
  | cons g rest ih =>
    rw [findFrameRev, if_pos (h g (List.mem_cons_self g rest))]
    exact ih (fun x hx => h x (List.mem_cons_of_mem g hx))

theorem findFrameRev_found {off : Nat} (r1 : List Blob) {f : Blob} (r2 : List Blob)
    (h1 : ∀ g ∈ r1, off < g.offset) (h2 : f.offset ≤ off)
    (h3 : off < f.offset + f.data.length) :
    findFrameRev off (r1 ++ f :: r2) =
      some (f.offset + f.data.length, f.data.drop (off - f.offset)) := by
  induction r1 with
  | nil =>
    rw [List.nil_append, findFrameRev, if_neg (Nat.not_lt.mpr h2), if_neg (Nat.not_le.mpr h3)]
  | cons g t ih =>
    rw [List.cons_append, findFrameRev, if_pos (h1 g (List.mem_cons_self g t))]
    exact ih (fun x hx => h1 x (List.mem_cons_of_mem g hx))

theorem contig_after {k : Nat} {l1 l2 : List Blob} {f : Blob}
    (hc : Contig k (l1 ++ f :: l2)) :
    ∀ g ∈ l2, f.offset + f.data.length ≤ g.offset := by
  obtain ⟨k2, _, hc2⟩ := contig_suffix hc
  exact contig_mono hc2.2

theorem contig_end_le {E : Nat} {l : List Blob} :
    ∀ {k : Nat}, Contig k l → (∀ b, l.getLast? = some b → b.offset + b.data.length ≤ E) →
      ∀ f ∈ l, f.offset + f.data.length ≤ E := by
  induction l with
  | nil =>
    intro k _ _ f hf
    cases hf
  | cons f0 rest ih =>
    intro k hc hE f hf
    rcases List.mem_cons.mp hf with rfl | hf2
    · rcases hrest : rest with _ | ⟨g, t⟩
      · apply hE
        rw [hrest] at hc ⊢
        rfl
      · have hc2 := hc.2
        have hgoff : g.offset = f.offset + f.data.length := by
          rw [hrest] at hc2
          exact hc2.1
        have hEr : ∀ b, rest.getLast? = some b → b.offset + b.data.length ≤ E := by
          intro b hb
          apply hE
          rw [getLast?_cons_ne (by rw [hrest]; exact List.cons_ne_nil g t)]
          exact hb
        have hg : g.offset + g.data.length ≤ E := by
          apply ih hc2 hEr
          rw [hrest]
          exact List.mem_cons_self g t
        calc f.offset + f.data.length = g.offset := hgoff.symm
          _ ≤ g.offset + g.data.length := Nat.le_add_right _ _
          _ ≤ E := hg
    · have hrne : rest ≠ [] := by
        intro hr
        rw [hr] at hf2
        cases hf2
      have hEr : ∀ b, rest.getLast? = some b → b.offset + b.data.length ≤ E := by
        intro b hb
        apply hE
        rw [getLast?_cons_ne hrne]
        exact hb
      exact ih hc.2 hEr f hf2

theorem contig_covers {l : List Blob} {off : Nat} :
    ∀ {k : Nat}, Contig k l → k ≤ off → l ≠ [] →
      (∀ b, l.getLast? = some b → off < b.offset + b.data.length) →
      ∃ f ∈ l, f.offset ≤ off ∧ off < f.offset + f.data.length := by
  induction l with
  | nil =>
    intro k _ _ hne _
    exact absurd rfl hne
  | cons f rest ih =>
    intro k hc h1 _ h2
    by_cases hoff : off < f.offset + f.data.length
    · exact ⟨f, List.mem_cons_self f rest, hc.1 ▸ h1, hoff⟩
    · by_cases hrest : rest = []
      · exfalso
        apply hoff
        apply h2
        rw [hrest]
        rfl
      · have h1r : f.offset + f.data.length ≤ off := Nat.le_of_not_lt hoff
        have h2r : ∀ b, rest.getLast? = some b → off < b.offset + b.data.length := by
          intro b hb
          apply h2
          rw [getLast?_cons_ne hrest]
          exact hb
        obtain ⟨x, hx, hx2⟩ := ih hc.2 h1r hrest h2r
        exact ⟨x, List.mem_cons_of_mem f hx, hx2⟩

theorem frame_end_le_offset {σ : Type} {s : StreamState σ} (hinv : Inv s) :
    ∀ f ∈ s.frames, f.offset + f.data.length ≤ s.offset := by
  obtain ⟨k, _, hc⟩ := hinv.contig
  apply contig_end_le hc
  intro b hb
  have hle := hinv.lastEnd
  unfold lastEndOk at hle
  rw [hb] at hle
  exact le_of_eq hle.symm

theorem preamble_le_frame {σ : Type} {s : StreamState σ} (hinv : Inv s) :
    ∀ f ∈ s.frames, s.preamble.length ≤ f.offset := by
  obtain ⟨k, hk, hc⟩ := hinv.contig
  intro f hf
  exact le_trans hk (contig_mono hc f hf)

theorem read_after_in_frame {σ : Type} {s : StreamState σ} (hinv : Inv s)
    {f : Blob} (hf : f ∈ s.frames) {off : Nat}
    (h1 : f.offset ≤ off) (h2 : off < f.offset + f.data.length) :
    read_after s off = (f.offset + f.data.length, f.data.drop (off - f.offset)) := by
  obtain ⟨l1, l2, hdec⟩ := List.append_of_mem hf
  have hlt : off < s.offset := lt_of_lt_of_le h2 (frame_end_le_offset hinv f hf)
  have hpre : s.preamble.length ≤ off := le_trans (preamble_le_frame hinv f hf) h1
  rw [read_after, if_neg (Nat.not_le.mpr hlt), if_neg (Nat.not_lt.mpr hpre)]
  have hrev : s.frames.reverse = l2.reverse ++ f :: l1.reverse := by
    rw [hdec, List.reverse_append, List.reverse_cons, List.append_assoc]
    rfl
  obtain ⟨k, hk, hc⟩ := hinv.contig
  have hafter : ∀ g ∈ l2, f.offset + f.data.length ≤ g.offset := by
    rw [hdec] at hc
    exact contig_after hc
  have hskip : ∀ g ∈ l2.reverse, off < g.offset := by
    intro g hg
    exact lt_of_lt_of_le h2 (hafter g (List.mem_reverse.mp hg))
  rw [hrev, findFrameRev_found l2.reverse l1.reverse hskip h1 h2]

theorem read_after_miss {σ : Type} {s : StreamState σ} (hinv : Inv s) {off : Nat}
    (hpre : s.preamble.length ≤ off) (hlt : off < s.offset)
    (hmiss : ∀ f ∈ s.frames, ¬(f.offset ≤ off ∧ off < f.offset + f.data.length)) :
    (match s.frames with
      | [] => read_after s off = (off, [])
      | f :: _ => read_after s off = (f.offset + f.data.length, f.data)) := by
  rcases hfr : s.frames with _ | ⟨f0, rest⟩
  · rw [read_after, if_neg (Nat.not_le.mpr hlt), if_neg (Nat.not_lt.mpr hpre), hfr]
    rfl
  · obtain ⟨k, hk, hc⟩ := hinv.contig
    rw [hfr] at hc
    have hflt : off < f0.offset := by
      by_contra hcon
      push_neg at hcon
      have hcov := contig_covers (k := k) (hc.1 ▸ hc) (hc.1 ▸ hcon) (List.cons_ne_nil f0 rest) ?hlast
      case hlast =>
        intro b hb
        have hle := hinv.lastEnd
        unfold lastEndOk at hle
        rw [hfr, hb] at hle
        rw [← hle]
        exact hlt
      obtain ⟨x, hx, hx2, hx3⟩ := hcov
      rw [← hfr] at hx
      exact hmiss x hx ⟨hx2, hx3⟩
    have hall : ∀ g ∈ s.frames.reverse, off < g.offset := by
      intro g hg
      have hg2 : g ∈ s.frames := List.mem_reverse.mp hg
      rw [hfr] at hg2
      have : f0.offset ≤ g.offset := by
        rcases List.mem_cons.mp hg2 with rfl | hg3
        · exact Nat.le_refl _
        · calc f0.offset ≤ f0.offset + f0.data.length := Nat.le_add_right _ _
            _ ≤ g.offset := contig_after
                (show Contig k ([] ++ f0 :: rest) from by rw [List.nil_append]; exact hc) g hg3
      exact lt_of_lt_of_le hflt this
    rw [read_after, if_neg (Nat.not_le.mpr hlt), if_neg (Nat.not_lt.mpr hpre),
      findFrameRev_none hall, hfr]

/-! Equivalence of the checked and unchecked semantics on reachable states:
the would-panic branches of the checked semantics are never taken. -/

theorem cvt_map {α β : Type} (f : α → β) (o : Option α) :
    CRes.map f (cvt o) = cvt (o.map f) := by
  cases o <;> rfl

theorem cvt_ne_crash {α : Type} (o : Option α) : cvt o ≠ CRes.crash := by
  cases o <;> intro h <;> cases h

theorem findFrameRevC_eq (off : Nat) : ∀ l : List Blob,
    findFrameRevC off l = some (findFrameRev off l) := by
  intro l
  induction l with
  | nil => rfl
  | cons f rest ih =>
    rw [findFrameRevC, findFrameRev]
    by_cases h1 : off < f.offset
    · rw [if_pos h1, if_pos h1]
      exact ih
    · rw [if_neg h1, if_neg h1]
      by_cases h2 : f.offset + f.data.length ≤ off
      · rw [if_pos h2, if_pos h2]
      · rw [if_neg h2, if_neg h2]
        have h3 : ¬ f.data.length < off - f.offset := by
          push_neg at h1 h2
          omega
        rw [if_neg h3]

theorem read_afterC_eq {σ : Type} (s : StreamState σ) (off : Nat) :
    read_afterC s off = some (read_after s off) := by
  rw [read_afterC, read_after]
  by_cases h1 : s.offset ≤ off
  · rw [if_pos h1, if_pos h1]
  · rw [if_neg h1, if_neg h1]
    by_cases h2 : off < s.preamble.length
    · rw [if_pos h2, if_pos h2, if_neg (Nat.not_lt.mpr (le_of_lt h2))]
    · rw [if_neg h2, if_neg h2, findFrameRevC_eq]
      rcases findFrameRev off s.frames.reverse with _ | r
      · cases s.frames <;> rfl
      · rfl

theorem inv_snoc_contig {σ : Type} {s : StreamState σ} (h : Inv s) :
    ∃ k, s.preamble.length ≤ k ∧
      Contig k (s.frames ++ [(⟨s.offset, s.pendingFrame⟩ : Blob)]) := by
  by_cases hn : s.frames = []
  · refine ⟨s.offset, ?_, ?_⟩
    · have hh := h.histSum
      omega
    · rw [hn]
      exact ⟨rfl, trivial⟩
  · obtain ⟨k, hk, hc⟩ := h.contig
    refine ⟨k, hk, contig_snoc _ hc (fun he => absurd he hn) ?_⟩
    intro g hg
    have hle := h.lastEnd
    unfold lastEndOk at hle
    rw [hg] at hle
    exact hle

theorem evictLoopC_eq : ∀ {l : List Blob} {k : Nat}, Contig k l → l ≠ [] →
    evictLoopC l = some (evictLoop l) := by
  intro l
  induction l with
  | nil =>
    intro k _ hne
    exact absurd rfl hne
  | cons f rest ih =>
    intro k hc _
    rw [evictLoopC, evictLoop]
    have hmono : f.offset ≤ ((f :: rest).getLast (List.cons_ne_nil f rest)).offset := by
      have hmem := List.getLast_mem (List.cons_ne_nil f rest)
      have h2 := contig_mono hc _ hmem
      have h3 : f.offset = k := hc.1
      omega
    rw [if_neg (Nat.not_lt.mpr hmono)]
    by_cases hcond : ((f :: rest).getLast (List.cons_ne_nil f rest)).offset - f.offset < 1048576
    · rw [if_pos hcond, if_pos hcond]
    · rw [if_neg hcond, if_neg hcond]
      have hrest : rest ≠ [] := by
        intro hr
        subst hr
        simp [List.getLast] at hcond
      exact ih hc.2 hrest

theorem finish_frameC_eq {σ : Type} {s : StreamState σ} (h : Inv s) :
    finish_frameC s = some (finish_frame s) := by
  obtain ⟨k, hk, hc⟩ := inv_snoc_contig h
  rw [finish_frameC]
  rw [evictLoopC_eq hc (by simp)]
  rfl

theorem consumeC_eq {σ : Type} {D : DecoderFn σ} (hle : DecLe D) :
    ∀ {fuel : Nat} {s : StreamState σ} {d : List Nat}, Inv s →
      consumeC D fuel s d = cvt (consume D fuel s d) := by
  intro fuel
  induction fuel with
  | zero =>
    intro s d _
    rfl
  | succ fuel ih =>
    intro s d h
    rcases hD : D s.decoder d with ⟨n0, ev, dec⟩
    have hnle : ¬ d.length < n0 := by
      have h2 := hle s.decoder d
      rw [hD] at h2
      exact Nat.not_lt.mpr h2
    rw [consumeC, hD]
    dsimp only
    rw [if_neg hnle]
    cases ev
    case nothing =>
      rw [consume_succ_nothing hD]
      rfl
    case dataEnd =>
      have hinv1 : Inv (add_to_frame { s with decoder := dec } (d.take n0)) :=
        inv_add_to_frame (inv_decoder h)
      rw [consume_succ_dataEnd hD, finish_frameC_eq hinv1]
      dsimp only
      rw [ih (inv_finish_frame hinv1)]
      rw [cvt_map]
    case other =>
      have hinv1 : Inv (add_to_preamble { s with decoder := dec } (d.take n0)) :=
        inv_add_to_preamble (inv_decoder h)
      rw [consume_succ_other hD]
      rw [ih hinv1]
      rw [cvt_map]
    all_goals {
      have hinv1 : Inv (add_to_frame { s with decoder := dec } (d.take n0)) :=
        inv_add_to_frame (inv_decoder h)
      rw [consume_succ_interior hD (by simp)]
      rw [ih hinv1]
      rw [cvt_map]
    }

theorem writeLoopAC_eq {σ : Type} {D : DecoderFn σ} (hle : DecLe D) :
    ∀ {fuel : Nat} {s : StreamState σ} {d : List Nat}, Inv s →
      writeLoopAC D fuel s d = cvt (writeLoopA D fuel s d) := by
  intro fuel
  induction fuel with
  | zero =>
    intro s d _
    rfl
  | succ fuel ih =>
    intro s d h
    rw [writeLoopAC, writeLoopA, consumeC_eq hle h]
    rcases hcons : consume D (fuel + 1) s d with _ | ⟨s1, n⟩
    · rfl
    · dsimp only [cvt]
      by_cases hn : n = 0
      · rw [if_pos hn, if_pos hn]
      · rw [if_neg hn, if_neg hn]
        exact ih (inv_consume h hcons)

theorem writeLoopBC_eq {σ : Type} {D : DecoderFn σ} (hle : DecLe D) :
    ∀ {fuel : Nat} {s : StreamState σ} {d : List Nat}, Inv s →
      writeLoopBC D fuel s d = cvt (writeLoopB D fuel s d) := by
  intro fuel
  induction fuel with
  | zero =>
    intro s d _
    rfl
  | succ fuel ih =>
    intro s d h
    rw [writeLoopBC, writeLoopB, consumeC_eq hle h]
    rcases hcons : consume D (fuel + 1) s d with _ | ⟨s1, n⟩
    · rfl
    · dsimp only [cvt]
      by_cases hn : n = 0
      · rw [if_pos hn, if_pos hn]
      · rw [if_neg hn, if_neg hn]
        exact ih (inv_consume h hcons)

theorem writeC_eq {σ : Type} {D : DecoderFn σ} {fuel : Nat} (hle : DecLe D)
    {s : StreamState σ} {d : List Nat} (h : Inv s) :
    writeC D fuel s d = cvt (write D fuel s d) := by
  rw [writeC, write]
  by_cases hu : s.undecoded.length = 0
  · rw [if_pos hu, if_pos hu, writeLoopAC_eq hle h]
    rcases writeLoopA D fuel s d with _ | ⟨s1, rest⟩ <;> rfl
  · rw [if_neg hu, if_neg hu]
    dsimp only
    have h0 : Inv { s with undecoded := ([] : List Nat) } := inv_of_eq_fields h rfl rfl rfl rfl
    rw [writeLoopBC_eq hle h0]
    rcases writeLoopB D fuel { s with undecoded := ([] : List Nat) } (s.undecoded ++ d)
      with _ | s1 <;> rfl

/-! Rendition selection: sorting helper lemmas. -/

theorem find?_sorted_min {p : Rendition → Bool} {l : List Rendition} {a : Rendition}
    (hs : List.Sorted (fun a b => renditionKey a ≤ renditionKey b) l)
    (hf : l.find? p = some a) :
    ∀ x ∈ l, p x = true → renditionKey a ≤ renditionKey x := by
  induction l with
  | nil => cases hf
  | cons b t ih =>
    by_cases hb : p b = true
    · rw [List.find?_cons_of_pos _ hb] at hf
      have hab : b = a := by
        injection hf
      subst hab
      intro x hx hpx
      rcases List.mem_cons.mp hx with rfl | hx2
      · exact Nat.le_refl _
      · exact (List.sorted_cons.mp hs).1 x hx2
    · rw [List.find?_cons_of_neg _ hb] at hf
      intro x hx hpx
      rcases List.mem_cons.mp hx with rfl | hx2
      · exact absurd hpx hb
      · exact ih (List.sorted_cons.mp hs).2 hf x hx2 hpx

theorem sorted_last_max {l : List Rendition}
    (hs : List.Sorted (fun a b => renditionKey a ≤ renditionKey b) l)
    {b : Rendition} (hb : l.getLast? = some b) :
    ∀ x ∈ l, renditionKey x ≤ renditionKey b := by
  have hne : l ≠ [] := by
    intro hl
    rw [hl] at hb
    cases hb
  have hbl : b = l.getLast hne := by
    rw [List.getLast?_eq_getLast l hne] at hb
    injection hb with h
    exact h.symm
  have hdec : l = l.dropLast ++ [l.getLast hne] := (List.dropLast_append_getLast hne).symm
  intro x hx
  rw [hdec] at hx hs
  rcases List.mem_append.mp hx with hx2 | hx2
  · have h3 := (List.pairwise_append.mp hs).2.2
    rw [hbl]
    exact h3 x hx2 _ (List.mem_singleton_self _)
  · have hxb : x = l.getLast hne := by
      simpa using hx2
    rw [hxb, hbl]

theorem mem_of_getLast?_eq {l : List Rendition} {b : Rendition}
    (hb : l.getLast? = some b) : b ∈ l := by
  have hne : l ≠ [] := by
    intro hl
    rw [hl] at hb
    cases hb
  have hbl : b = l.getLast hne := by
    rw [List.getLast?_eq_getLast l hne] at hb
    injection hb with h
    exact h.symm
  rw [hbl]
  exact List.getLast_mem hne

/-- C9 (amended): for every list of candidate renditions and every minimum
height, the selection fails exactly when no renditions exist; and any
selected rendition is either the lowest-resolution rendition whose height
truncated to 32 bits (as the code's cast to u32 computes it) is at least
the minimum, or, when no rendition passes that truncated test, the
highest-resolution rendition. -/
theorem claim_C9_rendition_selection (renditions : List Rendition) (minRes : Nat) :
    (get_variant_playlist_url renditions minRes = none ↔ renditions = []) ∧
    (∀ r, get_variant_playlist_url renditions minRes = some r →
      r ∈ renditions ∧
      ((qualifiesCode minRes r = true ∧
          ∀ q ∈ renditions, qualifiesCode minRes q = true → renditionKey r ≤ renditionKey q) ∨
        ((∀ q ∈ renditions, qualifiesCode minRes q = false) ∧
          ∀ q ∈ renditions, renditionKey q ≤ renditionKey r))) := by
  have hperm := List.perm_insertionSort (fun a b => renditionKey a ≤ renditionKey b) renditions
  have hsort := List.sorted_insertionSort (fun a b => renditionKey a ≤ renditionKey b) renditions
  set S := List.insertionSort (fun a b => renditionKey a ≤ renditionKey b) renditions with hSdef
  have hres_eq : get_variant_playlist_url renditions minRes =
      (match S.dropLast.find? (qualifiesCode minRes) with
        | some r => some r
        | none => S.getLast?) := by
    rw [get_variant_playlist_url]
  constructor
  · constructor
    · intro hres
      by_contra hne
      have hSne : S ≠ [] := by
        intro hS
        apply hne
        have hlen := hperm.length_eq
        rw [hS] at hlen
        exact List.length_eq_zero.mp hlen.symm
      rw [hres_eq] at hres
      rcases hfind : S.dropLast.find? (qualifiesCode minRes) with _ | r0
      · rw [hfind] at hres
        dsimp only at hres
        rw [← List.getLast?_isSome] at hSne
        rw [hres] at hSne
        cases hSne
      · rw [hfind] at hres
        cases hres
    · intro hres
      subst hres
      rfl
  · intro r hres
    rw [hres_eq] at hres
    rcases hfind : S.dropLast.find? (qualifiesCode minRes) with _ | r0
    · rw [hfind] at hres
      dsimp only at hres
      have hSne : S ≠ [] := by
        intro hS
        rw [hS] at hres
        cases hres
      have hmem : r ∈ renditions := hperm.mem_iff.mp (mem_of_getLast?_eq hres)
      refine ⟨hmem, ?_⟩
      have hrlast : S.getLast hSne = r := by
        rw [List.getLast?_eq_getLast S hSne] at hres
        injection hres with h
      have hdec : S = S.dropLast ++ [S.getLast hSne] := (List.dropLast_append_getLast hSne).symm
      have hnoq : ∀ x ∈ S.dropLast, ¬ qualifiesCode minRes x = true :=
        List.find?_eq_none.mp hfind
      by_cases hq : qualifiesCode minRes r = true
      · left
        refine ⟨hq, ?_⟩
        intro x hx hqx
        have hxS : x ∈ S := hperm.mem_iff.mpr hx
        rw [hdec] at hxS
        rcases List.mem_append.mp hxS with hx2 | hx2
        · exact absurd hqx (hnoq x hx2)
        · have hxr : x = r := by
            rw [← hrlast]
            simpa using hx2
          rw [hxr]
      · right
        constructor
        · intro x hx
          have hxS : x ∈ S := hperm.mem_iff.mpr hx
          rw [hdec] at hxS
          rcases List.mem_append.mp hxS with hx2 | hx2
          · exact Bool.not_eq_true _ ▸ (hnoq x hx2)
          · have hxr : x = r := by
              rw [← hrlast]
              simpa using hx2
            rw [hxr]
            exact Bool.not_eq_true _ ▸ hq
        · intro x hx
          exact sorted_last_max hsort hres x (hperm.mem_iff.mpr hx)
    · rw [hfind] at hres
      have hr0 : r0 = r := by
        injection hres
      subst hr0
      have hmemd : r0 ∈ S.dropLast := List.mem_of_find?_eq_some hfind
      have hmemS : r0 ∈ S := (List.dropLast_sublist _).subset hmemd
      refine ⟨hperm.mem_iff.mp hmemS, ?_⟩
      left
      refine ⟨List.find?_some hfind, ?_⟩
      intro x hx hqx
      have hxS : x ∈ S := hperm.mem_iff.mpr hx
      have hSne : S ≠ [] := by
        intro hS
        rw [hS] at hxS
        cases hxS
      have hdec : S = S.dropLast ++ [S.getLast hSne] := (List.dropLast_append_getLast hSne).symm
      have hsd : List.Sorted (fun a b => renditionKey a ≤ renditionKey b) S.dropLast :=
        List.Pairwise.sublist (List.dropLast_sublist _) hsort
      rw [hdec] at hxS
      rcases List.mem_append.mp hxS with hx2 | hx2
      · exact find?_sorted_min hsd hfind x hx2 hqx
      · have hxl : x = S.getLast hSne := by
          simpa using hx2
        have hmax := sorted_last_max hsort (List.getLast?_eq_getLast S hSne) r0 hmemS
        rw [hxl]
        exact hmax

/-- C1: the claim says classification is independent of chunk boundaries.
The code violates it: feeding [0,1,2,3] in one write leaves the preamble
[0,1,2,3], while feeding [0] then [1,2,3] through the same decoder leaves
the preamble [0,1,2,3,0,1] (the non-advancing carry loop re-feeds already
consumed bytes), so the final preambles differ. -/
theorem claim_C1_chunk_equivalence_fails :
    (writeSeq scriptStep 10 (init sc1) [[0, 1, 2, 3]]).map (fun s => (s.preamble, s.frames))
        = some ([0, 1, 2, 3], []) ∧
    (writeSeq scriptStep 10 (init sc1) [[0], [1, 2, 3]]).map (fun s => (s.preamble, s.frames))
        = some ([0, 1, 2, 3, 0, 1], []) := by
  constructor <;> decide

/-- C2: the claim says the carry holds exactly the unconsumed bytes.  The
code violates it: after writing [0] (nothing consumed, carry [0]) and then
[1], the source consumes both bytes into the preamble, yet the carry ends
as [0,1] instead of empty, because the second branch of write appends the
whole batch back to the carry. -/
theorem claim_C2_carry_retains_consumed :
    (writeSeq scriptStep 10 (init sc2) [[0], [1]]).map
        (fun s => (s.undecoded, s.preamble, s.offset)) = some ([0, 1], [0, 1], 2) := by
  decide

/-- C3: the claim says the copy loop terminates successfully at end-of-file.
The code violates it: the loop body executes continue when read returns
zero bytes, so with an output stream at EOF (every read returns the empty
chunk) the loop never produces a result no matter how much fuel it gets -
it spins forever instead of ending the activity. -/
theorem claim_C3_copy_loop_never_ends_at_eof :
    ∀ (σ : Type) (D : DecoderFn σ) (fuel k : Nat) (s : StreamState σ) (off : Nat)
      (sent : List (List Nat)),
      copyLoop D (fun _ => []) fuel k s off sent = none := by
  intro σ D fuel
  induction fuel with
  | zero =>
    intro k s off sent
    rfl
  | succ fuel ih =>
    intro k s off sent
    rw [copyLoop]
    exact ih (k + 1) s off sent

/-- C5 counterexample: the claim says that on a pre-frame-metadata event in
a pristine buffer both the unclassified bytes and the event's bytes go to
the preamble and the cursor advances by their combined length.  Running
the script (consume 1 byte with no event, then a 1-byte preamble event) on
[7,8] actually leaves preamble [8], moves the unclassified byte 7 into the
pending frame, and advances the cursor only to 1, not 2. -/
theorem claim_C5_counterexample :
    (writeSeq scriptStep 10 (init sc5) [[7, 8]]).map
        (fun s => (s.preamble, s.pendingFrame, s.offset)) = some ([8], [7], 1) ∧
    ¬ (writeSeq scriptStep 10 (init sc5) [[7, 8]]).map
        (fun s => (s.preamble, s.offset)) = some ([7, 8], 2) := by
  constructor <;> decide

/-- C5 (amended): when the decoder reports a pre-frame-metadata event while
no frame has been completed and the pending frame is empty, the
accumulated unclassified bytes are moved into the pending frame, only the
event's consumed bytes are appended to the preamble, and the cursor
advances by the consumed bytes' length; otherwise the consumed bytes are
dropped (only the decoder state changes) and the write continues without
error. -/
theorem claim_C5_preamble_step {σ : Type} {D : DecoderFn σ} {fuel : Nat}
    {s : StreamState σ} {d : List Nat} {n : Nat} {dec : σ}
    (h : D s.decoder d = (n, Decoded.other, dec)) :
    (s.frames = [] ∧ s.pendingFrame = [] →
      consume D (fuel + 1) s d =
        (consume D fuel
          { s with
            decoder := dec
            pendingFrame := s.pendingFrame ++ s.decoded
            decoded := []
            preamble := s.preamble ++ d.take n
            offset := s.offset + (d.take n).length } (d.drop n)).map
          (fun r => (r.1, n + r.2))) ∧
    (¬(s.frames = [] ∧ s.pendingFrame = []) →
      consume D (fuel + 1) s d =
        (consume D fuel { s with decoder := dec } (d.drop n)).map
          (fun r => (r.1, n + r.2))) := by
  constructor
  · intro hpristine
    rw [consume_succ_other h]
    have hg : ¬(0 < ({ s with decoder := dec } : StreamState σ).frames.length ∨
        0 < ({ s with decoder := dec } : StreamState σ).pendingFrame.length) := by
      show ¬(0 < s.frames.length ∨ 0 < s.pendingFrame.length)
      rw [hpristine.1, hpristine.2]
      simp
    rw [add_to_preamble, if_neg hg]
  · intro hng
    rw [consume_succ_other h]
    have hg : (0 < ({ s with decoder := dec } : StreamState σ).frames.length ∨
        0 < ({ s with decoder := dec } : StreamState σ).pendingFrame.length) := by
      show 0 < s.frames.length ∨ 0 < s.pendingFrame.length
      rcases not_and_or.mp hng with h1 | h2
      · exact Or.inl (List.length_pos.mpr h1)
      · exact Or.inr (List.length_pos.mpr h2)
    rw [add_to_preamble, if_pos hg]

/-- Witness for the amended C5 at a concrete input: a one-byte preamble
event on the pristine initial buffer. -/
theorem claim_C5_preamble_step_witness :
    consume scriptStep 2 (init scW5) [9] =
      (consume scriptStep 1
        { init scW5 with
          decoder := ([] : Script)
          pendingFrame := (init scW5).pendingFrame ++ (init scW5).decoded
          decoded := []
          preamble := (init scW5).preamble ++ ([9] : List Nat).take 1
          offset := (init scW5).offset + (([9] : List Nat).take 1).length }
        (([9] : List Nat).drop 1)).map
        (fun r => (r.1, 1 + r.2)) :=
  (@claim_C5_preamble_step Script scriptStep 1 (init scW5) [9] 1 [] (by decide)).1 ⟨rfl, rfl⟩

/-- C6: for every single write the cursor never decreases, and after any
sequence of writes from a fresh buffer the cursor equals the preamble
length plus the sum of the lengths of all frames ever finalized (the ghost
history, which includes evicted frames). -/
theorem claim_C6_cursor_monotone_and_exact {σ : Type} (D : DecoderFn σ) (fuel : Nat) :
    (∀ (s s' : StreamState σ) (d : List Nat), write D fuel s d = some s' →
      s.offset ≤ s'.offset) ∧
    (∀ (d0 : σ) (chunks : List (List Nat)) (s : StreamState σ),
      writeSeq D fuel (init d0) chunks = some s →
      s.offset = s.preamble.length + sumLens s.history) := by
  constructor
  · intro s s' d h
    exact offset_le_write h
  · intro d0 chunks s h
    exact (inv_writeSeq (inv_init d0) h).histSum

/-- C4 (amended): after any sequence of writes from a fresh buffer, the
difference between the newest and the oldest retained frame's starting
offsets stays under 1 MiB (the code's eviction compares frame starts, not
the start-to-end byte span the claim describes), and the eviction loop
never removes the newest frame nor empties a nonempty window. -/
theorem claim_C4_eviction_bound {σ : Type} (D : DecoderFn σ) (d0 : σ) (fuel : Nat)
    (chunks : List (List Nat)) (s : StreamState σ)
    (hrun : writeSeq D fuel (init d0) chunks = some s) :
    spanOk s.frames ∧
    (∀ l : List Blob, l ≠ [] → evictLoop l ≠ [] ∧ (evictLoop l).getLast? = l.getLast?) := by
  refine ⟨(inv_writeSeq (inv_init d0) hrun).span, ?_⟩
  intro l hl
  exact ⟨evictLoop_ne_nil hl, evictLoop_getLast hl⟩

/-- C7: on any reachable buffer state, for an offset below the cursor, at
or past the preamble, and contained in no retained frame, read_after
returns the oldest retained frame in full with the new offset at that
frame's end, or returns the offset unchanged with no data when no frames
are retained. -/
theorem claim_C7_catch_up {σ : Type} (D : DecoderFn σ) (d0 : σ) (fuel : Nat)
    (chunks : List (List Nat)) (s : StreamState σ) (off : Nat)
    (hrun : writeSeq D fuel (init d0) chunks = some s)
    (hpre : s.preamble.length ≤ off) (hlt : off < s.offset)
    (hmiss : ∀ f ∈ s.frames, ¬(f.offset ≤ off ∧ off < f.offset + f.data.length)) :
    (match s.frames with
      | [] => read_after s off = (off, [])
      | f :: _ => read_after s off = (f.offset + f.data.length, f.data)) :=
  read_after_miss (inv_writeSeq (inv_init d0) hrun) hpre hlt hmiss

/-- C8: on any reachable buffer state (under the event-source contract),
read_after at a retained frame's starting offset returns exactly that
frame's bytes with the new offset at the frame's end, and more generally
at any offset inside the frame it returns the frame's unseen suffix. -/
theorem claim_C8_exact_resume {σ : Type} (D : DecoderFn σ)
    (hle : DecLe D) (hpos : DecPos D) (d0 : σ) (fuel : Nat)
    (chunks : List (List Nat)) (s : StreamState σ)
    (hrun : writeSeq D fuel (init d0) chunks = some s)
    (f : Blob) (hf : f ∈ s.frames) :
    read_after s f.offset = (f.offset + f.data.length, f.data) ∧
    (∀ off, f.offset ≤ off → off < f.offset + f.data.length →
      read_after s off = (f.offset + f.data.length, f.data.drop (off - f.offset))) := by
  have hinv := inv_writeSeq (inv_init d0) hrun
  have hNE := framesNE_writeSeq hle hpos (framesNE_init d0) hrun
  have hgeneral : ∀ off, f.offset ≤ off → off < f.offset + f.data.length →
      read_after s off = (f.offset + f.data.length, f.data.drop (off - f.offset)) :=
    fun off h1 h2 => read_after_in_frame hinv hf h1 h2
  constructor
  · have hlen : 0 < f.data.length := List.length_pos.mpr (hNE f hf)
    have hpos2 : f.offset < f.offset + f.data.length := by omega
    have heq := hgeneral f.offset (Nat.le_refl _) hpos2
    rw [heq]
    simp
  · exact hgeneral

/-- C10: on any reachable buffer state and for a decoder that never claims
to consume more bytes than offered, the checked semantics agrees with the
unchecked one: read_after never panics (every slice it takes is in
bounds), and write never panics (no out-of-bounds slice, no underflow in
the eviction loop's offset subtraction, and the front/back unwraps always
find a frame); the only non-ok outcome write can have is running out of
fuel, matching the possibility of non-termination. -/
theorem claim_C10_no_panics {σ : Type} (D : DecoderFn σ) (hle : DecLe D) (d0 : σ)
    (fuel0 : Nat) (chunks : List (List Nat)) (s : StreamState σ)
    (hrun : writeSeq D fuel0 (init d0) chunks = some s) :
    (∀ off, read_afterC s off = some (read_after s off)) ∧
    (∀ (d : List Nat) (fuel : Nat), writeC D fuel s d ≠ CRes.crash) := by
  have hinv := inv_writeSeq (inv_init d0) hrun
  refine ⟨fun off => read_afterC_eq s off, ?_⟩
  intro d fuel
  rw [writeC_eq hle hinv]
  exact cvt_ne_crash _

/-- Witness for C6 at a concrete run: one write of the byte 5 producing a
single one-byte frame. -/
theorem claim_C6_cursor_witness :
    (init sc6).offset ≤ st6.offset ∧
    st6.offset = st6.preamble.length + sumLens st6.history :=
  ⟨(claim_C6_cursor_monotone_and_exact scriptStep 10).1 (init sc6) st6 [5] (by decide),
   (claim_C6_cursor_monotone_and_exact scriptStep 10).2 sc6 [[5]] st6 (by decide)⟩

/-- Witness for C10 at a concrete state: the freshly initialised buffer,
reached by the empty sequence of writes. -/
theorem claim_C10_no_panics_witness :
    (∀ off, read_afterC (init ([] : Script)) off = some (read_after (init ([] : Script)) off)) ∧
    (∀ (d : List Nat) (fuel : Nat), writeC scriptStep fuel (init ([] : Script)) d ≠ CRes.crash) :=
  claim_C10_no_panics scriptStep scriptStep_le [] 1 [] (init ([] : Script)) rfl

/-! Concrete symbolic runs through 1 MiB inputs, used by the eviction
counterexample and the eviction witnesses. -/

theorem evictLoop_single (b : Blob) : evictLoop [b] = [b] := by
  rw [evictLoop]
  simp [List.getLast]

theorem evictLoop_pair_keep {a b : Blob} (h : b.offset - a.offset < 1048576) :
    evictLoop [a, b] = [a, b] := by
  rw [evictLoop]
  simp only [List.getLast]
  rw [if_pos h]

theorem evictLoop_pair_drop {a b : Blob} (h : ¬ b.offset - a.offset < 1048576) :
    evictLoop [a, b] = [b] := by
  rw [evictLoop]
  simp only [List.getLast]
  rw [if_neg h]
  exact evictLoop_single b

theorem writeLoopA_step {σ : Type} {D : DecoderFn σ} {fuel : Nat}
    {s : StreamState σ} {d : List Nat} {s1 : StreamState σ} {n : Nat}
    (h : consume D (fuel + 1) s d = some (s1, n)) (hn : ¬ n = 0) :
    writeLoopA D (fuel + 1) s d = writeLoopA D fuel s1 (d.drop n) := by
  rw [writeLoopA, h]
  dsimp only
  rw [if_neg hn]

theorem writeLoopA_stop {σ : Type} {D : DecoderFn σ} {fuel : Nat}
    {s : StreamState σ} {d : List Nat} {s1 : StreamState σ}
    (h : consume D (fuel + 1) s d = some (s1, 0)) :
    writeLoopA D (fuel + 1) s d = some (s1, d) := by
  rw [writeLoopA, h]
  dsimp only
  rw [if_pos rfl]

theorem consume_run4 (f : Nat) :
    consume scriptStep (f + 3) (init sc4) in4 = some (st4, 1048586) := by
  have h1 : scriptStep (init sc4).decoder in4 =
      (10, Decoded.dataEnd, [(1048576, Decoded.dataEnd)]) := by
    show scriptStep sc4 in4 = _
    rw [sc4]
    apply scriptStep_fire
    · norm_num
    · rw [in4, List.length_replicate]
      norm_num
  rw [consume_succ_dataEnd h1]
  have e1 : finish_frame (add_to_frame
      { init sc4 with decoder := [(1048576, Decoded.dataEnd)] } (in4.take 10)) =
      (⟨[], [⟨0, List.replicate 10 0⟩], 10, [], [(1048576, Decoded.dataEnd)], [], [],
        [⟨0, List.replicate 10 0⟩]⟩ : StreamState Script) := by
    rw [in4, List.take_replicate]
    norm_num
    rw [add_to_frame, finish_frame]
    dsimp only [init]
    simp only [List.nil_append, List.cons_append]
    rw [List.length_replicate]
    rw [evictLoop_single]
  rw [e1]
  have ed1 : in4.drop 10 = List.replicate 1048576 0 := by
    rw [in4, List.drop_replicate]
  rw [ed1]
  have h2 : scriptStep ((⟨[], [⟨0, List.replicate 10 0⟩], 10, [],
      [(1048576, Decoded.dataEnd)], [], [],
      [⟨0, List.replicate 10 0⟩]⟩ : StreamState Script)).decoder (List.replicate 1048576 0) =
      (1048576, Decoded.dataEnd, []) := by
    show scriptStep [(1048576, Decoded.dataEnd)] (List.replicate 1048576 0) = _
    apply scriptStep_fire
    · norm_num
    · rw [List.length_replicate]
  rw [consume_succ_dataEnd h2]
  have e2 : finish_frame (add_to_frame { (⟨[], [⟨0, List.replicate 10 0⟩], 10, [],
      [(1048576, Decoded.dataEnd)], [], [], [⟨0, List.replicate 10 0⟩]⟩ : StreamState Script) with
        decoder := ([] : Script) } ((List.replicate 1048576 (0 : Nat)).take 1048576)) = st4 := by
    rw [List.take_replicate, Nat.min_self, add_to_frame, finish_frame]
    dsimp only
    simp only [List.nil_append, List.cons_append]
    rw [List.length_replicate]
    rw [evictLoop_pair_keep (by norm_num)]
    rw [st4]
  rw [e2]
  have ed2 : (List.replicate 1048576 (0 : Nat)).drop 1048576 = [] := by
    rw [List.drop_replicate]
    norm_num
  rw [ed2]
  have h3 : scriptStep st4.decoder [] = (0, Decoded.nothing, []) := rfl
  rw [consume_succ_nothing h3]
  rfl

theorem write_run4 (f : Nat) :
    write scriptStep (f + 3) (init sc4) in4 = some st4 := by
  have ed : in4.drop 1048586 = [] := by
    rw [in4, List.drop_replicate]
    norm_num
  have h3 : scriptStep st4.decoder [] = (0, Decoded.nothing, []) := rfl
  rw [write, if_pos (show (init sc4).undecoded.length = 0 from rfl),
    writeLoopA_step (consume_run4 f) (by norm_num), ed,
    writeLoopA_stop (consume_succ_nothing h3)]
  rfl

theorem st4_frames_eq :
    st4.frames = [⟨0, List.replicate 10 0⟩, ⟨10, List.replicate 1048576 0⟩] := rfl

theorem st4_getLast_eq : st4.frames.getLast? = some ⟨10, List.replicate 1048576 0⟩ := by
  rw [st4_frames_eq]
  rfl

theorem spanToEnd_violation {σ : Type} (s : StreamState σ) (a b : Blob)
    (h1 : s.frames.head? = some a) (h2 : s.frames.getLast? = some b)
    (h3 : s.frames.length = 2) (h4 : 1048576 < b.offset + b.data.length - a.offset) :
    ¬ spanToEndOk s := by
  intro hcon
  rcases hcon a b h1 h2 with h | ⟨h5, h6⟩
  · omega
  · omega

/-- C4 counterexample: the claim bounds the span from the oldest retained
frame's first byte to the newest retained frame's last byte by 1 MiB
whenever more than one frame is retained.  Writing a 10-byte frame
followed by a 1 MiB frame keeps both retained (their starting offsets
differ by only 10, which is what the code's eviction compares), yet the
start-to-end span is 1 MiB plus 10 bytes, violating the claim. -/
theorem claim_C4_counterexample :
    write scriptStep 3 (init sc4) in4 = some st4 ∧ ¬ spanToEndOk st4 := by
  constructor
  · have h := write_run4 0
    norm_num at h
    exact h
  · exact spanToEnd_violation st4 ⟨0, List.replicate 10 0⟩ ⟨10, List.replicate 1048576 0⟩
      (by rw [st4_frames_eq]; rfl) st4_getLast_eq (by rw [st4_frames_eq]; rfl)
      (by rw [(show (⟨10, List.replicate 1048576 0⟩ : Blob).data = List.replicate 1048576 0
            from rfl), List.length_replicate]
          norm_num)

theorem consume_run7 (f : Nat) :
    consume scriptStep (f + 4) (init sc7) in7 = some (st7, 1048583) := by
  have h1 : scriptStep (init sc7).decoder in7 =
      (1048576, Decoded.dataEnd, [(3, Decoded.dataEnd), (4, Decoded.dataEnd)]) := by
    show scriptStep sc7 in7 = _
    rw [sc7]
    apply scriptStep_fire
    · norm_num
    · rw [in7, List.length_replicate]
      norm_num
  rw [consume_succ_dataEnd h1]
  have e1 : finish_frame (add_to_frame
      { init sc7 with decoder := [(3, Decoded.dataEnd), (4, Decoded.dataEnd)] } (in7.take 1048576)) =
      (⟨[], [⟨0, List.replicate 1048576 0⟩], 1048576, [],
        [(3, Decoded.dataEnd), (4, Decoded.dataEnd)], [], [],
        [⟨0, List.replicate 1048576 0⟩]⟩ : StreamState Script) := by
    rw [in7, List.take_replicate]
    norm_num
    rw [add_to_frame, finish_frame]
    dsimp only [init]
    simp only [List.nil_append, List.cons_append]
    rw [List.length_replicate]
    rw [evictLoop_single]
  rw [e1]
  have ed1 : in7.drop 1048576 = List.replicate 7 0 := by
    rw [in7, List.drop_replicate]
  rw [ed1]
  have h2 : scriptStep ((⟨[], [⟨0, List.replicate 1048576 0⟩], 1048576, [],
      [(3, Decoded.dataEnd), (4, Decoded.dataEnd)], [], [],
      [⟨0, List.replicate 1048576 0⟩]⟩ : StreamState Script)).decoder (List.replicate 7 0) =
      (3, Decoded.dataEnd, [(4, Decoded.dataEnd)]) := by
    show scriptStep [(3, Decoded.dataEnd), (4, Decoded.dataEnd)] (List.replicate 7 0) = _
    apply scriptStep_fire
    · norm_num
    · rw [List.length_replicate]
      norm_num
  rw [consume_succ_dataEnd h2]
  have e2 : finish_frame (add_to_frame { (⟨[], [⟨0, List.replicate 1048576 0⟩], 1048576, [],
      [(3, Decoded.dataEnd), (4, Decoded.dataEnd)], [], [],
      [⟨0, List.replicate 1048576 0⟩]⟩ : StreamState Script) with
        decoder := [(4, Decoded.dataEnd)] } ((List.replicate 7 (0 : Nat)).take 3)) =
      (⟨[], [⟨1048576, List.replicate 3 0⟩], 1048579, [], [(4, Decoded.dataEnd)], [], [],
        [⟨0, List.replicate 1048576 0⟩, ⟨1048576, List.replicate 3 0⟩]⟩ : StreamState Script) := by
    rw [List.take_replicate]
    norm_num
    rw [add_to_frame, finish_frame]
    dsimp only
    simp only [List.nil_append, List.cons_append]
    rw [List.length_replicate]
    rw [evictLoop_pair_drop (by norm_num)]
  rw [e2]
  have ed2 : (List.replicate 7 (0 : Nat)).drop 3 = List.replicate 4 0 := by
    rw [List.drop_replicate]
  rw [ed2]
  have h3 : scriptStep ((⟨[], [⟨1048576, List.replicate 3 0⟩], 1048579, [],
      [(4, Decoded.dataEnd)], [], [],
      [⟨0, List.replicate 1048576 0⟩, ⟨1048576, List.replicate 3 0⟩]⟩ : StreamState Script)).decoder
      (List.replicate 4 0) = (4, Decoded.dataEnd, []) := by
    show scriptStep [(4, Decoded.dataEnd)] (List.replicate 4 0) = _
    apply scriptStep_fire
    · norm_num
    · rw [List.length_replicate]
  rw [consume_succ_dataEnd h3]
  have e3 : finish_frame (add_to_frame { (⟨[], [⟨1048576, List.replicate 3 0⟩], 1048579, [],
      [(4, Decoded.dataEnd)], [], [],
      [⟨0, List.replicate 1048576 0⟩, ⟨1048576, List.replicate 3 0⟩]⟩ : StreamState Script) with
        decoder := ([] : Script) } ((List.replicate 4 (0 : Nat)).take 4)) = st7 := by
    rw [List.take_replicate, Nat.min_self, add_to_frame, finish_frame]
    dsimp only
    simp only [List.nil_append, List.cons_append]
    rw [List.length_replicate]
    rw [evictLoop_pair_keep (by norm_num)]
    rw [st7]
  rw [e3]
  have ed3 : (List.replicate 4 (0 : Nat)).drop 4 = [] := by
    rw [List.drop_replicate]
    norm_num
  rw [ed3]
  have h4 : scriptStep st7.decoder [] = (0, Decoded.nothing, []) := rfl
  rw [consume_succ_nothing h4]
  rfl

theorem write_run7 (f : Nat) :
    write scriptStep (f + 4) (init sc7) in7 = some st7 := by
  have ed : in7.drop 1048583 = [] := by
    rw [in7, List.drop_replicate]
    norm_num
  have h4 : scriptStep st7.decoder [] = (0, Decoded.nothing, []) := rfl
  rw [write, if_pos (show (init sc7).undecoded.length = 0 from rfl),
    writeLoopA_step (consume_run7 f) (by norm_num), ed,
    writeLoopA_stop (consume_succ_nothing h4)]
  rfl

theorem writeSeq_run7 (f : Nat) :
    writeSeq scriptStep (f + 4) (init sc7) [in7] = some st7 := by
  rw [writeSeq, write_run7]
  rfl

/-- Witness for the amended C4 at a concrete run through eviction: after
writing frames of 1 MiB, 3 and 4 bytes the window holds the last two, and
their starting offsets differ by under 1 MiB; the eviction loop preserves
the newest frame of any nonempty window. -/
theorem claim_C4_eviction_bound_witness :
    spanOk st7.frames ∧
    (evictLoop [(⟨0, [1]⟩ : Blob)] ≠ [] ∧
      (evictLoop [(⟨0, [1]⟩ : Blob)]).getLast? = [(⟨0, [1]⟩ : Blob)].getLast?) := by
  have hrun : writeSeq scriptStep 4 (init sc7) [in7] = some st7 := by
    have h := writeSeq_run7 0
    norm_num at h
    exact h
  have h := claim_C4_eviction_bound scriptStep sc7 4 [in7] st7 hrun
  exact ⟨h.1, h.2 [⟨0, [1]⟩] (by simp)⟩

/-- Witness for C7 at a concrete state: offset 5 lies in the evicted 1 MiB
frame, so read_after falls back to the oldest retained frame (the 3-byte
frame at offset 1048576) returned in full. -/
theorem claim_C7_catch_up_witness :
    read_after st7 5 = (1048579, List.replicate 3 0) := by
  have hrun : writeSeq scriptStep 4 (init sc7) [in7] = some st7 := by
    have h := writeSeq_run7 0
    norm_num at h
    exact h
  have hmiss : ∀ f ∈ st7.frames, ¬(f.offset ≤ 5 ∧ 5 < f.offset + f.data.length) := by
    intro f hf
    rw [show st7.frames = [⟨1048576, List.replicate 3 0⟩, ⟨1048579, List.replicate 4 0⟩]
      from rfl] at hf
    have hf2 : f = (⟨1048576, List.replicate 3 0⟩ : Blob) ∨
        f = (⟨1048579, List.replicate 4 0⟩ : Blob) := by
      simpa using hf
    rcases hf2 with rfl | rfl
    · intro hcon
      have h1 : (1048576 : Nat) ≤ 5 := hcon.1
      omega
    · intro hcon
      have h1 : (1048579 : Nat) ≤ 5 := hcon.1
      omega
  exact claim_C7_catch_up scriptStep sc7 4 [in7] st7 5 hrun
    (Nat.zero_le 5 : st7.preamble.length ≤ 5)
    (by norm_num : (5 : Nat) < 1048583)
    hmiss

/-- Witness for C8 at a concrete state: offset 1048579 is exactly the
newest retained frame's start, and read_after returns that frame's four
bytes with the new offset at its end. -/
theorem claim_C8_exact_resume_witness :
    read_after st7 1048579 = (1048583, List.replicate 4 0) := by
  have hrun : writeSeq scriptStep 4 (init sc7) [in7] = some st7 := by
    have h := writeSeq_run7 0
    norm_num at h
    exact h
  have hmem : (⟨1048579, List.replicate 4 0⟩ : Blob) ∈ st7.frames := by
    rw [show st7.frames = [⟨1048576, List.replicate 3 0⟩, ⟨1048579, List.replicate 4 0⟩]
      from rfl]
    simp
  exact (claim_C8_exact_resume scriptStep scriptStep_le scriptStep_pos sc7 4 [in7] st7 hrun
    (⟨1048579, List.replicate 4 0⟩ : Blob) hmem).1

/-- C9 counterexample: the claim says the selector picks the
lowest-resolution rendition whose height is at least the minimum.  With
heights 4294967296 and 4294967301 and minimum 1, both qualify by true
height, but the code casts the height to u32 before comparing, truncating
4294967296 to 0; the lower rendition is thus skipped and the higher one is
selected, so the selected rendition is not the lowest qualifying one. -/
theorem claim_C9_counterexample :
    get_variant_playlist_url cex9 1 = some r9 ∧ ¬ claimSelects cex9 1 r9 := by
  constructor <;> decide

/-- Witness for the amended C9 at the concrete candidate list cex9 with
minimum height 1: the selected rendition r9 is a member and satisfies the
amended selection property. -/
theorem claim_C9_rendition_selection_witness :
    r9 ∈ cex9 ∧
    ((qualifiesCode 1 r9 = true ∧
        ∀ q ∈ cex9, qualifiesCode 1 q = true → renditionKey r9 ≤ renditionKey q) ∨
      ((∀ q ∈ cex9, qualifiesCode 1 q = false) ∧
        ∀ q ∈ cex9, renditionKey q ≤ renditionKey r9)) :=
  (claim_C9_rendition_selection cex9 1).2 r9 (by decide)

end Twif
